import Mathlib

/-!
Verification of the xcbuild build-graph core against its specification.

The development shallowly embeds two source files:
  - `Sources/pbxbuild/Action/NinjaExecutor.cpp` (the build-graph emitter,
    shell escaper, executable resolver, phony-output synthesis), and
  - `Sources/pbxbuild/Phase/FrameworksResolver.cpp` (the link phase resolver).

External collaborators that the source calls but whose code is not part of
the two files (filesystem utilities, build-setting resolution, the formatter,
tool-spec lookup, the invocation-context constructors, and the md5 routine
from libutil) are modelled either as oracle function parameters bundled in a
`World` structure or as definitions written from the specification's words;
such definitions carry a doc comment starting with `Modelled from the spec:`.
-/

/- ### Shell escaping (NinjaExecutor.cpp, ShellEscape) -/

/-- The character set accepted unescaped by `ShellEscape`
(NinjaExecutor.cpp lines 308-311): letters, digits, and `@%_-+=:,./`. -/
def shellSafeChars : List Char :=
  "abcdefghijklmnopqrstuvwxyzABCDEFGHIJKLMNOPQRSTUVWXYZ0123456789@%_-+=:,./".toList

/-- Whether a character is in the safe set. -/
def shellSafe (c : Char) : Bool := shellSafeChars.contains c

/-- One step of the single-quote replacement loop of `ShellEscape`
(lines 315-319): each embedded single quote becomes the five characters
of the standard quote-splice, every other character is kept. -/
def shellEscapeChar (c : Char) : List Char :=
  if c == '\'' then "'\"'\"'".toList else [c]

/-- `ShellEscape` (NinjaExecutor.cpp lines 305-322): return the value
unchanged when every character is in the safe set, otherwise wrap it in
single quotes after splicing embedded single quotes. -/
def ShellEscape (value : String) : String :=
  if value.toList.all shellSafe then
    value
  else
    "'" ++ String.mk (value.toList.flatMap shellEscapeChar) ++ "'"

/-- The command-string composition of NinjaExecutor.cpp lines 478-481:
the shell-escaped executable, then each shell-escaped argument, joined
with single spaces. -/
def composeExec (executable : String) (args : List String) : String :=
  args.foldl (fun acc arg => acc ++ " " ++ ShellEscape arg) (ShellEscape executable)

/-- Parser mode of the POSIX word-splitting model: outside any quotes,
inside single quotes, or inside double quotes. -/
inductive ShMode where
  | outside
  | insingle
  | indouble
deriving DecidableEq

/-- Modelled from the spec: POSIX shell word-splitting and quote removal,
the reading a POSIX shell applies to the `$exec` substitution (spec P5).
Words split on unquoted blanks; single quotes protect everything until the
closing quote; double quotes protect everything except backslash escapes of
dollar, double quote, backslash and backquote; an unquoted backslash escapes
the next character. Returns `none` on an unterminated quote. -/
def splitGo : List Char → ShMode → List Char → Bool → List String → Option (List String)
  | [], ShMode.outside, cur, started, acc =>
      some (acc ++ if started then [String.mk cur] else [])
  | [], _, _, _, _ => none
  | c :: rest, ShMode.outside, cur, started, acc =>
      if c == ' ' || c == '\t' || c == '\n' then
        splitGo rest ShMode.outside [] false (acc ++ if started then [String.mk cur] else [])
      else if c == '\'' then splitGo rest ShMode.insingle cur true acc
      else if c == '"' then splitGo rest ShMode.indouble cur true acc
      else if c == '\\' then
        match rest with
        | [] => none
        | d :: rest2 => splitGo rest2 ShMode.outside (cur ++ [d]) true acc
      else splitGo rest ShMode.outside (cur ++ [c]) true acc
  | c :: rest, ShMode.insingle, cur, started, acc =>
      if c == '\'' then splitGo rest ShMode.outside cur started acc
      else splitGo rest ShMode.insingle (cur ++ [c]) started acc
  | c :: rest, ShMode.indouble, cur, started, acc =>
      if c == '"' then splitGo rest ShMode.outside cur started acc
      else if c == '\\' then
        match rest with
        | [] => none
        | d :: rest2 =>
            if d == '$' || d == '"' || d == '\\' || d.toNat == 96 then
              splitGo rest2 ShMode.indouble (cur ++ [d]) started acc
            else splitGo rest2 ShMode.indouble (cur ++ ['\\', d]) started acc
      else splitGo rest ShMode.indouble (cur ++ [c]) started acc

/-- Modelled from the spec: POSIX word-splitting of a full string, starting
outside quotes with no word in progress. -/
def shellSplit (s : String) : Option (List String) :=
  splitGo s.toList ShMode.outside [] false []

/- ### Phony-output synthesis (NinjaExecutor.cpp, NinjaPhonyOutputTarget) -/

/-- The 32-bit modulus used throughout the md5 model. -/
def M32 : Nat := 4294967296

/-- Bitwise complement within 32 bits. -/
def not32 (x : Nat) : Nat := (M32 - 1) - (x % M32)

/-- Left rotation of a 32-bit word by `n` bits. -/
def rotl32 (x n : Nat) : Nat :=
  (x % M32) * 2 ^ n % M32 + x % M32 / 2 ^ (32 - n)

/-- The 64 round constants of md5 (RFC 1321 table T). -/
def md5K : List Nat :=
  [0xd76aa478, 0xe8c7b756, 0x242070db, 0xc1bdceee,
   0xf57c0faf, 0x4787c62a, 0xa8304613, 0xfd469501,
   0x698098d8, 0x8b44f7af, 0xffff5bb1, 0x895cd7be,
   0x6b901122, 0xfd987193, 0xa679438e, 0x49b40821,
   0xf61e2562, 0xc040b340, 0x265e5a51, 0xe9b6c7aa,
   0xd62f105d, 0x02441453, 0xd8a1e681, 0xe7d3fbc8,
   0x21e1cde6, 0xc33707d6, 0xf4d50d87, 0x455a14ed,
   0xa9e3e905, 0xfcefa3f8, 0x676f02d9, 0x8d2a4c8a,
   0xfffa3942, 0x8771f681, 0x6d9d6122, 0xfde5380c,
   0xa4beea44, 0x4bdecfa9, 0xf6bb4b60, 0xbebfbc70,
   0x289b7ec6, 0xeaa127fa, 0xd4ef3085, 0x04881d05,
   0xd9d4d039, 0xe6db99e5, 0x1fa27cf8, 0xc4ac5665,
   0xf4292244, 0x432aff97, 0xab9423a7, 0xfc93a039,
   0x655b59c3, 0x8f0ccc92, 0xffeff47d, 0x85845dd1,
   0x6fa87e4f, 0xfe2ce6e0, 0xa3014314, 0x4e0811a1,
   0xf7537e82, 0xbd3af235, 0x2ad7d2bb, 0xeb86d391]

/-- The 64 per-round rotation amounts of md5. -/
def md5S : List Nat :=
  [7, 12, 17, 22, 7, 12, 17, 22, 7, 12, 17, 22, 7, 12, 17, 22,
   5, 9, 14, 20, 5, 9, 14, 20, 5, 9, 14, 20, 5, 9, 14, 20,
   4, 11, 16, 23, 4, 11, 16, 23, 4, 11, 16, 23, 4, 11, 16, 23,
   6, 10, 15, 21, 6, 10, 15, 21, 6, 10, 15, 21, 6, 10, 15, 21]

/-- Assemble little-endian 32-bit words from a byte list. -/
def words4 : List Nat → List Nat
  | b0 :: b1 :: b2 :: b3 :: rest =>
      (b0 + 256 * b1 + 65536 * b2 + 16777216 * b3) :: words4 rest
  | _ => []

/-- Split a byte list into 64-byte chunks; the fuel argument (instantiated
with the list length) keeps the recursion structural. -/
def chunks64Go : Nat → List Nat → List (List Nat)
  | 0, _ => []
  | _, [] => []
  | fuel + 1, l => l.take 64 :: chunks64Go fuel (l.drop 64)

/-- Split a byte list into 64-byte chunks. -/
def chunks64 (l : List Nat) : List (List Nat) := chunks64Go l.length l

/-- One of the 64 md5 rounds, acting on the state `(a, b, c, d)`. -/
def md5Round (M : List Nat) (st : Nat × Nat × Nat × Nat) (i : Nat) : Nat × Nat × Nat × Nat :=
  let a := st.1
  let b := st.2.1
  let c := st.2.2.1
  let d := st.2.2.2
  let fg : Nat × Nat :=
    if i < 16 then (Nat.lor (Nat.land b c) (Nat.land (not32 b) d), i)
    else if i < 32 then (Nat.lor (Nat.land d b) (Nat.land (not32 d) c), (5 * i + 1) % 16)
    else if i < 48 then (Nat.xor (Nat.xor b c) d, (3 * i + 5) % 16)
    else (Nat.xor c (Nat.lor b (not32 d)), (7 * i) % 16)
  let f2 := (fg.1 + a + md5K.getD i 0 + M.getD fg.2 0) % M32
  (d, (b + rotl32 f2 (md5S.getD i 0)) % M32, b, c)

/-- Process one 64-byte chunk, adding the round result into the state. -/
def md5Chunk (st : Nat × Nat × Nat × Nat) (chunk : List Nat) : Nat × Nat × Nat × Nat :=
  let M := words4 chunk
  let r := (List.range 64).foldl (md5Round M) st
  ((st.1 + r.1) % M32, (st.2.1 + r.2.1) % M32, (st.2.2.1 + r.2.2.1) % M32,
    (st.2.2.2 + r.2.2.2) % M32)

/-- The 8-byte little-endian encoding of the message bit length. -/
def md5LenBytes (bitLen : Nat) : List Nat :=
  [bitLen % 256, bitLen / 256 % 256, bitLen / 65536 % 256, bitLen / 16777216 % 256,
   bitLen / 4294967296 % 256, bitLen / 1099511627776 % 256,
   bitLen / 281474976710656 % 256, bitLen / 72057594037927936 % 256]

/-- md5 message padding: a 1 bit, zeros to 56 mod 64, then the bit length. -/
def md5Pad (bytes : List Nat) : List Nat :=
  let padZeros := (120 - (bytes.length + 1) % 64) % 64
  bytes ++ [128] ++ List.replicate padZeros 0 ++ md5LenBytes (bytes.length * 8 % 2 ^ 64)

/-- The 4-byte little-endian encoding of a 32-bit word. -/
def wordBytes (w : Nat) : List Nat :=
  [w % 256, w / 256 % 256, w / 65536 % 256, w / 16777216 % 256]

/-- Serialize the final md5 state into the 16 digest bytes. -/
def stateBytes (st : Nat × Nat × Nat × Nat) : List Nat :=
  wordBytes st.1 ++ wordBytes st.2.1 ++ wordBytes st.2.2.1 ++ wordBytes st.2.2.2

/-- Modelled from the spec: the md5 digest (libutil md5_init, md5_append,
md5_finish is not under src; this is the RFC 1321 algorithm, checked against
the standard test vectors). Returns the 16 digest bytes of a byte string. -/
def md5Bytes (bytes : List Nat) : List Nat :=
  stateBytes ((chunks64 (md5Pad bytes)).foldl md5Chunk
    (0x67452301, 0xefcdab89, 0x98badcfe, 0x10325476))

/-- The lowercase hexadecimal digit characters in order. -/
def hexDigitChar (n : Nat) : Char := "0123456789abcdef".toList.getD n '0'

/-- The two lowercase hexadecimal digits of one digest byte, high nibble
first, as produced by the `setw(2) << setfill('0') << hex` stream loop of
NinjaExecutor.cpp lines 113-117. -/
def hexByte (b : Nat) : List Char := [hexDigitChar (b / 16 % 16), hexDigitChar (b % 16)]

/-- The raw bytes of a string, as `md5_append` receives them from
`std::string::data()` (the strings are UTF-8 encoded). -/
def strBytes (s : String) : List Nat := s.toUTF8.toList.map (fun b => b.toNat)

/-- The 32-character lowercase hexadecimal rendering of the md5 digest of a
string (NinjaExecutor.cpp lines 107-117). -/
def md5HexDigest (s : String) : String := String.mk ((md5Bytes (strBytes s)).flatMap hexByte)

/-- `NinjaPhonyOutputTarget` (NinjaExecutor.cpp lines 85-120): the synthetic
phony output path, the fixed prefix followed by the md5 hex digest of the
phony output string. -/
def NinjaPhonyOutputTarget (phonyOutput : String) : String :=
  ".ninja-phony-output-" ++ md5HexDigest phonyOutput

/-- Whether a character is a lowercase hexadecimal digit. -/
def isLowerHex (c : Char) : Bool := "0123456789abcdef".toList.contains c

/- ### Link phase resolver (FrameworksResolver.cpp) -/

/-- Modelled from the spec: `libutil::FSUtil::GetFileExtension` (not under
src) — the text after the final dot of the path's final component, empty
when the component has no dot. -/
def GetFileExtension (path : String) : String :=
  let base := (path.splitOn "/").getLastD path
  let parts := base.splitOn "."
  if parts.length ≤ 1 then "" else parts.getLastD ""

/-- A record of one invocation-context construction performed by the
resolver. `pbxbuild::Tool::LinkerInvocationContext::Create` and
`pbxbuild::Tool::ToolInvocationContext::Create` are not under src, so each
constructed invocation is captured as the exact argument list of the call:
`link` for `LinkerInvocationContext::Create (linker, sourceOutputs, files,
output, args, environment, workingDirectory, executable)` and `tool` for
`ToolInvocationContext::Create (tool, inputs, outputs, environment,
workingDirectory)`. The environment is identified by its (variant,
optional architecture) tag. -/
inductive PhaseInvocation where
  | link (linker : String) (sourceOutputs : List String) (files : List String)
      (output : String) (args : List String) (env : String × Option String)
      (workingDirectory : String) (executable : String)
  | tool (toolName : String) (inputs : List String) (outputs : List String)
      (env : String × Option String) (workingDirectory : String)
deriving DecidableEq

/-- The inputs of `FrameworksResolver::Create`, with the external
collaborators (spec lookup, build-setting resolution, the sources resolver,
build-file resolution) represented as data and oracle functions. A spec
handle is `some name` when the spec manager finds it and `none` when the
lookup fails. `resolveTarget` is resolution against the target environment;
`resolveVariant v` is resolution against the target environment with the
variant level for `v` pushed in front. `sourceInvocations v a` is the entry
of `sourcesResolver.variantArchitectureInvocations()` for `(v, a)` (each
invocation reduced to its output list); `buildFiles v a` is the file list
that `phaseContext.resolveBuildFiles` returns for the architecture
environment of `(v, a)`. -/
structure FrameworksInput where
  ld : Option String
  libtool : Option String
  lipo : Option String
  dsymutil : Option String
  resolveTarget : String → String
  resolveVariant : String → String → String
  linkerDriver : String
  linkerArgs : List String
  workingDirectory : String
  variants : List String
  architectures : List String
  buildFiles : String → String → List String
  sourceInvocations : String → String → Option (List (List String))

/-- The object inputs to linking: the sources-phase outputs for this
(variant, architecture) whose extension is `o`
(FrameworksResolver.cpp lines 91-103). -/
def sourceOutputsFor (inp : FrameworksInput) (variant arch : String) : List String :=
  match inp.sourceInvocations variant arch with
  | some invs => invs.flatMap (fun outs => outs.filter (fun o => GetFileExtension o == "o"))
  | none => []

/-- One step of the architecture loop of FrameworksResolver.cpp lines
79-117, accumulating the emitted link invocations and (in the universal
branch) the per-architecture outputs that become the lipo inputs. -/
def frameworksArchStep (inp : FrameworksInput) (linker linkerExecutable : String)
    (linkerArguments : List String) (variant : String)
    (createUniversalBinary : Bool) (variantIntermediatesDirectory variantIntermediatesName
      variantProductsOutput : String)
    (acc : List PhaseInvocation × List String) (arch : String) :
    List PhaseInvocation × List String :=
  let files := inp.buildFiles variant arch
  let sourceOutputs := sourceOutputsFor inp variant arch
  if createUniversalBinary then
    let architectureIntermediatesDirectory := variantIntermediatesDirectory ++ "/" ++ arch
    let architectureIntermediatesOutput :=
      architectureIntermediatesDirectory ++ "/" ++ variantIntermediatesName
    (acc.1 ++ [PhaseInvocation.link linker sourceOutputs files
        architectureIntermediatesOutput linkerArguments (variant, some arch)
        inp.workingDirectory linkerExecutable],
      acc.2 ++ [architectureIntermediatesOutput])
  else
    (acc.1 ++ [PhaseInvocation.link linker sourceOutputs files
        variantProductsOutput linkerArguments (variant, some arch)
        inp.workingDirectory linkerExecutable],
      acc.2)

/-- The condition of the debug-symbol branch
(FrameworksResolver.cpp line 124). -/
def dsymCondition (inp : FrameworksInput) (binaryType variant : String) : Bool :=
  inp.resolveVariant variant "DEBUG_INFORMATION_FORMAT" == "dwarf-with-dsym"
    && !(binaryType == "staticlib") && !(binaryType == "mh_object")

/-- `EXECUTABLE_NAME + EXECUTABLE_VARIANT_SUFFIX` resolved in the variant
environment (FrameworksResolver.cpp line 70). -/
def variantIntermediatesNameOf (inp : FrameworksInput) (variant : String) : String :=
  inp.resolveVariant variant "EXECUTABLE_NAME"
    ++ inp.resolveVariant variant "EXECUTABLE_VARIANT_SUFFIX"

/-- `OBJECT_FILE_DIR_<variant>` resolved in the variant environment
(FrameworksResolver.cpp line 71). -/
def variantIntermediatesDirectoryOf (inp : FrameworksInput) (variant : String) : String :=
  inp.resolveVariant variant ("OBJECT_FILE_DIR_" ++ variant)

/-- The final per-variant binary path (FrameworksResolver.cpp lines 73-74). -/
def variantProductsOutputOf (inp : FrameworksInput)
    (productsDirectory variant : String) : String :=
  productsDirectory ++ "/" ++ (inp.resolveVariant variant "EXECUTABLE_PATH"
    ++ inp.resolveVariant variant "EXECUTABLE_VARIANT_SUFFIX")

/-- The dsym side-car path (FrameworksResolver.cpp line 125). -/
def dsymOutputOf (inp : FrameworksInput) (variant : String) : String :=
  inp.resolveVariant variant "DWARF_DSYM_FOLDER_PATH" ++ "/"
    ++ inp.resolveVariant variant "DWARF_DSYM_FILE_NAME"

/-- The invocations emitted for one variant (the body of the variant loop,
FrameworksResolver.cpp lines 66-129): the per-architecture link invocations,
then the lipo invocation when more than one architecture is configured,
then the dsymutil invocation when the debug-symbol branch is taken. -/
def frameworksVariantInvocations (inp : FrameworksInput)
    (linker linkerExecutable : String) (linkerArguments : List String)
    (lipoTool dsymutilTool binaryType productsDirectory variant : String) :
    List PhaseInvocation :=
  let variantProductsOutput := variantProductsOutputOf inp productsDirectory variant
  let createUniversalBinary := decide (1 < inp.architectures.length)
  let archResult := inp.architectures.foldl
    (frameworksArchStep inp linker linkerExecutable linkerArguments variant
      createUniversalBinary (variantIntermediatesDirectoryOf inp variant)
      (variantIntermediatesNameOf inp variant) variantProductsOutput) ([], [])
  archResult.1
    ++ (if createUniversalBinary then
        [PhaseInvocation.link lipoTool archResult.2 [] variantProductsOutput []
          (variant, none) inp.workingDirectory ""]
      else [])
    ++ (if dsymCondition inp binaryType variant then
        [PhaseInvocation.tool dsymutilTool [variantProductsOutput]
          [dsymOutputOf inp variant] (variant, none) inp.workingDirectory]
      else [])

/-- The linker choice of FrameworksResolver.cpp lines 50-61: for
`staticlib` the archiver with no driver override and no extra arguments,
otherwise `ld` with the sources resolver's driver and argument prefix.
Returns (linker, linkerExecutable, linkerArguments). -/
def linkerChoiceOf (inp : FrameworksInput) (ld libtool binaryType : String) :
    String × String × List String :=
  if binaryType == "staticlib" then (libtool, "", [])
  else (ld, inp.linkerDriver, inp.linkerArgs)

/-- The invocation list of the success path of `FrameworksResolver::Create`:
the per-variant lists in variant order. -/
def createInvocations (inp : FrameworksInput)
    (ld libtool lipoTool dsymutilTool : String) : List PhaseInvocation :=
  let binaryType := inp.resolveTarget "MACH_O_TYPE"
  let choice := linkerChoiceOf inp ld libtool binaryType
  let productsDirectory := inp.resolveTarget "BUILT_PRODUCTS_DIR"
  (inp.variants.map (frameworksVariantInvocations inp choice.1 choice.2.1 choice.2.2
    lipoTool dsymutilTool binaryType productsDirectory)).flatten

/-- `FrameworksResolver::Create` (FrameworksResolver.cpp lines 29-132):
fail with the diagnostic when any of the four tool specs is missing;
otherwise choose the archiver or the linker from `MACH_O_TYPE`, and emit
the per-variant invocations in variant order. Returns the optional
invocation list and the diagnostics written to standard error. -/
def FrameworksResolver.Create (inp : FrameworksInput) :
    Option (List PhaseInvocation) × List String :=
  match inp.ld, inp.libtool, inp.lipo, inp.dsymutil with
  | some ld, some libtool, some lipoTool, some dsymutilTool =>
      (some (createInvocations inp ld libtool lipoTool dsymutilTool), [])
  | _, _, _, _ => (none, ["error: couldn't get linker tools\n"])

/-- Whether a phase invocation was built by `ToolInvocationContext::Create`
(only the dsymutil branch does this in the resolver). -/
def isToolInvocation : PhaseInvocation → Bool
  | PhaseInvocation.tool .. => true
  | PhaseInvocation.link .. => false

/-- A concrete resolver input with all four tool specs present, two
architectures and one variant, used by the witnesses. -/
def fwTestInput : FrameworksInput where
  ld := some "com.apple.pbx.linkers.ld"
  libtool := some "com.apple.pbx.linkers.libtool"
  lipo := some "com.apple.xcode.linkers.lipo"
  dsymutil := some "com.apple.tools.dsymutil"
  resolveTarget := fun v =>
    if v == "MACH_O_TYPE" then "mh_execute"
    else if v == "BUILT_PRODUCTS_DIR" then "/prod" else ""
  resolveVariant := fun variant v =>
    if v == "EXECUTABLE_NAME" then "App"
    else if v == "EXECUTABLE_PATH" then "App"
    else if v == "DEBUG_INFORMATION_FORMAT" then "dwarf-with-dsym"
    else if v == "DWARF_DSYM_FOLDER_PATH" then "/prod"
    else if v == "DWARF_DSYM_FILE_NAME" then "App.dSYM"
    else if v == "OBJECT_FILE_DIR_" ++ variant then "/obj/" ++ variant
    else ""
  linkerDriver := "clang"
  linkerArgs := ["-lSystem"]
  workingDirectory := "/wd"
  variants := ["normal"]
  architectures := ["arm64", "x86_64"]
  buildFiles := fun _ _ => []
  sourceInvocations := fun _ _ => none

/-- The same resolver input with the lipo tool spec missing. -/
def fwTestInputMissing : FrameworksInput := { fwTestInput with lipo := none }

/- ### Build-graph emitter (NinjaExecutor.cpp) -/

/-- An auxiliary file of an invocation: path, byte contents,
executable flag. -/
structure AuxiliaryFile where
  path : String := ""
  contents : List Nat := []
  executable : Bool := false
deriving DecidableEq

/-- A tool invocation as the emitter reads it (the `Tool::Invocation`
value type; construction of invocations is upstream of the two embedded
files, so an invocation is pure input data here). -/
structure Invocation where
  executable : String := ""
  arguments : List String := []
  workingDirectory : String := ""
  inputs : List String := []
  outputs : List String := []
  phonyInputs : List String := []
  phonyOutputs : List String := []
  inputDependencies : List String := []
  orderDependencies : List String := []
  auxiliaryFiles : List AuxiliaryFile := []
  description : String := ""
deriving DecidableEq

/-- One serialized element of a `ninja::Writer`. A `build` statement
carries outputs, the rule name, plain inputs, the per-edge bindings, the
implicit input dependencies (after `|`) and the order-only dependencies
(after `||`), matching the six-argument `Writer::build` overload. -/
inductive Stmt where
  | comment (text : String)
  | newline
  | binding (name value : String)
  | rule (name command : String)
  | build (outputs : List String) (ruleName : String) (inputs : List String)
      (bindings : List (String × String)) (inputDeps : List String)
      (orderDeps : List String)
  | subninja (path : String)
deriving DecidableEq

/-- The oracle bundle for the emitter's external collaborators, none of
which are under src: `FSUtil::FindExecutable`, `FSUtil::CreateDirectory`
and `std::ofstream::open` success, `FSUtil::TestForExecute`, `chmod`
success, `FSUtil::GetDirectoryName`, and the two `Formatter` message
functions. `dryRun` is the executor's dry-run flag. -/
structure World where
  findExecutable : String → List String → String
  createDirOk : String → Bool
  openWriteOk : String → Bool
  testForExecute : String → Bool
  chmodOk : String → Bool
  getDirectoryName : String → String
  createAuxiliaryDirectoryMessage : String → String
  beginInvocationMessage : Invocation → String → String
  dryRun : Bool

/-- `TargetNinjaBegin` (NinjaExecutor.cpp lines 41-45). -/
def TargetNinjaBegin (name : String) : String := "begin-target-" ++ name

/-- `TargetNinjaFinish` (NinjaExecutor.cpp lines 47-51). -/
def TargetNinjaFinish (name : String) : String := "finish-target-" ++ name

/-- `TargetNinjaPath` (NinjaExecutor.cpp lines 53-65): the target's
resolved `TARGET_TEMP_DIR` plus `build.ninja`. -/
def TargetNinjaPath (targetTempDir : String) : String :=
  targetTempDir ++ "/" ++ "build.ninja"

/-- `NinjaRuleName` (NinjaExecutor.cpp lines 67-71). -/
def NinjaRuleName : String := "invoke"

/-- `NinjaDescription` (NinjaExecutor.cpp lines 73-83): the text up to the
first newline. -/
def NinjaDescription (description : String) : String :=
  String.mk (description.toList.takeWhile (fun c => c ≠ '\n'))

/-- Modelled from the spec: `FSUtil::IsAbsolutePath` (not under src) —
whether the path starts with a slash. -/
def IsAbsolutePath (path : String) : Bool :=
  match path.toList with
  | '/' :: _ => true
  | _ => false

/-- `ResolveExecutable` (NinjaExecutor.cpp lines 324-338): empty for
builtin tools, a search-path lookup for bare names, unchanged for
absolute paths. The `compare(0, 8, "builtin-") == 0` prefix test is the
character-prefix test. -/
def ResolveExecutable (w : World) (executable : String)
    (searchPaths : List String) : String :=
  if List.isPrefixOf "builtin-".toList executable.toList then ""
  else if !(IsAbsolutePath executable) then w.findExecutable executable searchPaths
  else executable

/-- Whether `WriteNinja` (NinjaExecutor.cpp lines 122-141) succeeds for a
path: creating the parent directory and opening the file must both work. -/
def WriteNinjaOk (w : World) (path : String) : Bool :=
  w.createDirOk (w.getDirectoryName path) && w.openWriteOk path

/-- Whether materializing one auxiliary file succeeds
(NinjaExecutor.cpp lines 407-425): parent directory creation, open, and,
for executables not already executable, the chmod. -/
def auxiliaryFileOk (w : World) (f : AuxiliaryFile) : Bool :=
  w.createDirOk (w.getDirectoryName f.path) && w.openWriteOk f.path
    && (if f.executable && !(w.testForExecute f.path) then w.chmodOk f.path else true)

/-- `buildTargetAuxiliaryFiles` (NinjaExecutor.cpp lines 392-430): writes
nothing in dry-run mode, otherwise succeeds exactly when every auxiliary
file of every invocation materializes. -/
def buildTargetAuxiliaryFiles (w : World) (invocations : List Invocation) : Bool :=
  if w.dryRun then true
  else invocations.all (fun inv => inv.auxiliaryFiles.all (auxiliaryFileOk w))

/-- One target as the emitter's walk sees it: its name, the names of its
adjacent targets in the dependency graph, whether
`buildContext.targetEnvironment` resolves, its resolved `TARGET_TEMP_DIR`,
the SDK executable search paths, and the invocation list that
`PhaseInvocations::Create` yields for it (meaningful only when the
environment resolves, since the source computes invocations only then). -/
structure TargetInput where
  name : String := ""
  dependencies : List String := []
  envResolves : Bool := true
  targetTempDir : String := ""
  sdkExecutablePaths : List String := []
  invocations : List Invocation := []
deriving DecidableEq

/-- The whole-build input of `NinjaExecutor::build`: the header data, the
resolved `OBJROOT`, and the targets in iteration order. -/
structure BuildInput where
  action : String := ""
  workspaceFile : Option String := none
  projectFile : Option String := none
  schemeName : Option String := none
  configuration : String := ""
  objroot : String := ""
  targets : List TargetInput := []

/-- First-occurrence deduplication with an explicit seen list, the
functional reading of insertion into an `unordered_set`. -/
def dedupKeepFirst : List String → List String → List String
  | [], _ => []
  | x :: xs, seen =>
      if seen.contains x then dedupKeepFirst xs seen
      else x :: dedupKeepFirst xs (seen ++ [x])

/-- The statements and diagnostics one invocation contributes to its
target's sub-graph (NinjaExecutor.cpp lines 458-580): nothing for an empty
executable; only a diagnostic for an unresolvable executable; otherwise
the phony edges for the phony inputs followed by the one `invoke` edge.
The output-directory order dependencies come from an `unordered_set` whose
iteration order is unspecified in the source; the model fixes
first-occurrence order. -/
def invocationStmts (w : World) (targetBegin : String) (searchPaths : List String)
    (inv : Invocation) : List Stmt × List String :=
  if inv.executable == "" then ([], [])
  else
    let executable := ResolveExecutable w inv.executable searchPaths
    if executable == "" then
      ([], ["error: unable to find executable " ++ inv.executable ++ "\n"])
    else
      let bindings := [("description", NinjaDescription (w.beginInvocationMessage inv executable)),
        ("dir", ShellEscape inv.workingDirectory),
        ("exec", composeExec executable inv.arguments)]
      let outputs := inv.outputs ++ inv.phonyOutputs.map NinjaPhonyOutputTarget
      let phonyStmts := inv.phonyInputs.map
        (fun pIn => Stmt.build [pIn] "phony" [] [] [] [])
      let outputDirectories := dedupKeepFirst (inv.outputs.map w.getDirectoryName) []
      let orderDeps := inv.orderDependencies ++ outputDirectories ++ [targetBegin]
      (phonyStmts ++ [Stmt.build outputs NinjaRuleName inv.inputs bindings
        inv.inputDependencies orderDeps], [])

/-- `buildTargetInvocations` (NinjaExecutor.cpp lines 432-596): the header
comments, the auxiliary-file writes (aborting on failure), the per-
invocation statements, and the serialization of the sub-graph to the
target's ninja path (aborting on failure). Returns the written (path,
statements) on success, plus the diagnostics printed on the way. -/
def buildTargetInvocations (w : World) (t : TargetInput) :
    Option (String × List Stmt) × List String :=
  let header := [Stmt.comment "xcbuild ninja", Stmt.comment ("Target: " ++ t.name),
    Stmt.newline]
  if !(buildTargetAuxiliaryFiles w t.invocations) then (none, [])
  else
    let results := t.invocations.map
      (invocationStmts w (TargetNinjaBegin t.name) t.sdkExecutablePaths)
    let stmts := header ++ (results.map Prod.fst).flatten
    let diags := (results.map Prod.snd).flatten
    let path := TargetNinjaPath t.targetTempDir
    if WriteNinjaOk w path then
      (some (path, stmts), diags ++ ["Wrote " ++ t.name ++ " ninja: " ++ path ++ "\n"])
    else (none, diags)

/-- One output-directory mention: the directory of one real output of one
invocation, with the invocation's working directory and the target's begin
node. -/
def targetDirMentions (w : World) (t : TargetInput) :
    List (String × String × String) :=
  t.invocations.flatMap (fun inv => inv.outputs.map
    (fun o => (w.getDirectoryName o, inv.workingDirectory, TargetNinjaBegin t.name)))

/-- The directory-creation edge for one mention
(NinjaExecutor.cpp lines 368-385). -/
def dirEdge (w : World) (p : String × String × String) : Stmt :=
  Stmt.build [p.1] NinjaRuleName []
    [("description", NinjaDescription (w.createAuxiliaryDirectoryMessage p.1)),
     ("dir", ShellEscape p.2.1),
     ("exec", "/bin/mkdir -p " ++ ShellEscape p.1)]
    [] [p.2.2]

/-- One step of the seen-directory dedup loop
(NinjaExecutor.cpp lines 354-387). -/
def dirMentionStep (w : World) (acc : List Stmt × List String)
    (p : String × String × String) : List Stmt × List String :=
  if acc.2.contains p.1 then acc
  else (acc.1 ++ [dirEdge w p], acc.2 ++ [p.1])

/-- `buildTargetOutputDirectories` (NinjaExecutor.cpp lines 340-390):
fold the target's mentions over the build-wide seen set, returning the new
root statements and the grown seen set. -/
def buildTargetOutputDirectories (w : World) (t : TargetInput)
    (seen : List String) : List Stmt × List String :=
  (targetDirMentions w t).foldl (dirMentionStep w) ([], seen)

/-- The emitter's per-build mutable state: the root writer statements, the
seen output directories, and the written sub-graphs. -/
structure BuildState where
  rootStmts : List Stmt
  seenDirs : List String
  subs : List (String × List Stmt)
deriving DecidableEq

/-- The body of the per-target loop of `NinjaExecutor::build`
(NinjaExecutor.cpp lines 200-287): the begin edge always; on environment
failure only a diagnostic; otherwise the directory edges, the sub-graph
write (aborting the build on failure), the subninja line and the finish
edge whose implicit inputs are the outputs of all invocations and whose
order-only inputs are their synthetic phony outputs. -/
def buildTarget (w : World) (st : BuildState) (t : TargetInput) :
    Option BuildState × List String :=
  let beginStmt := Stmt.build [TargetNinjaBegin t.name] "phony"
    (t.dependencies.map TargetNinjaFinish) [] [] []
  if !t.envResolves then
    (some { st with rootStmts := st.rootStmts ++ [beginStmt] },
      ["error: couldn't create target environment for " ++ t.name ++ "\n"])
  else
    let dirResult := buildTargetOutputDirectories w t st.seenDirs
    match buildTargetInvocations w t with
    | (none, diags) => (none, diags)
    | (some (path, stmts), diags) =>
        let finishStmt := Stmt.build [TargetNinjaFinish t.name] "phony" [] []
          ((t.invocations.map Invocation.outputs).flatten)
          ((t.invocations.map
            (fun inv => inv.phonyOutputs.map NinjaPhonyOutputTarget)).flatten)
        let newRoot := st.rootStmts ++ [beginStmt] ++ dirResult.1
          ++ [Stmt.subninja path, finishStmt]
        let stNew : BuildState :=
          { rootStmts := newRoot
            seenDirs := dirResult.2
            subs := st.subs ++ [(path, stmts)] }
        (some stNew, diags)

/-- The target walk, threading the state and aborting on the first
failure while concatenating diagnostics in emission order. -/
def ninjaBuildGo (w : World) :
    List TargetInput → BuildState → Option BuildState × List String
  | [], st => (some st, [])
  | t :: ts, st =>
      match buildTarget w st t with
      | (none, ds) => (none, ds)
      | (some st2, ds) =>
          match ninjaBuildGo w ts st2 with
          | (r, ds2) => (r, ds ++ ds2)

/-- The emitted build graph: the root file statements and the per-target
sub-graph files in emission order. -/
structure NinjaGraph where
  root : List Stmt
  subs : List (String × List Stmt)
deriving DecidableEq

/-- The root-file header (NinjaExecutor.cpp lines 166-191): comments,
the `builddir` binding, and the single `invoke` rule. -/
def rootHeader (inp : BuildInput) : List Stmt :=
  [Stmt.comment "xcbuild ninja", Stmt.comment ("Action: " ++ inp.action)]
    ++ (match inp.workspaceFile with
        | some f => [Stmt.comment ("Workspace: " ++ f)]
        | none => match inp.projectFile with
          | some f => [Stmt.comment ("Project: " ++ f)]
          | none => [])
    ++ (match inp.schemeName with
        | some s => [Stmt.comment ("Scheme: " ++ s)]
        | none => [])
    ++ [Stmt.comment ("Configuation: " ++ inp.configuration), Stmt.newline,
      Stmt.binding "builddir" inp.objroot, Stmt.newline,
      Stmt.rule NinjaRuleName "cd $dir && $exec"]

/-- `NinjaExecutor::build` (NinjaExecutor.cpp lines 143-303): the header,
the target walk, and the root-file write, returning the graph on success
(`none` models the `false` return) together with the standard-error
diagnostics in emission order. -/
def ninjaBuild (w : World) (inp : BuildInput) : Option NinjaGraph × List String :=
  match ninjaBuildGo w inp.targets
      { rootStmts := rootHeader inp, seenDirs := [], subs := [] } with
  | (none, ds) => (none, ds)
  | (some st, ds) =>
      let path := inp.objroot ++ "/" ++ "build.ninja"
      if WriteNinjaOk w path then
        (some { root := st.rootStmts, subs := st.subs },
          ds ++ ["Wrote meta-ninja: " ++ path ++ "\n"])
      else (none, ds)

/-- The outputs of a build statement (empty for anything else). -/
def stmtOutputs : Stmt → List String
  | Stmt.build outs _ _ _ _ _ => outs
  | _ => []

/-- Whether a statement is a build edge using the given rule. -/
def stmtIsBuildWithRule (r : String) : Stmt → Bool
  | Stmt.build _ ruleName _ _ _ _ => ruleName == r
  | _ => false

/-- Every statement of the emitted graph: the root file followed by the
sub-graph files in emission order. -/
def graphAllStmts (g : NinjaGraph) : List Stmt :=
  g.root ++ (g.subs.map Prod.snd).flatten

/-- Modelled from the spec: whether all filesystem writes performed for one
environment-resolving target succeed — every auxiliary file of every
invocation (unless dry-run) and the target's sub-graph file. -/
def targetWritesOk (w : World) (t : TargetInput) : Bool :=
  buildTargetAuxiliaryFiles w t.invocations
    && WriteNinjaOk w (TargetNinjaPath t.targetTempDir)

/-- Modelled from the spec: whether all filesystem writes of the whole
emission succeed — those of every environment-resolving target plus the
root graph file. The spec says the build fails exactly when one of these
writes fails. -/
def buildWritesOk (w : World) (inp : BuildInput) : Bool :=
  (inp.targets.filter (fun t => t.envResolves)).all (targetWritesOk w)
    && WriteNinjaOk w (inp.objroot ++ "/" ++ "build.ninja")

/-- All output-directory mentions of the build, in emission order (only
environment-resolving targets reach the directory loop). -/
def buildDirMentions (w : World) (inp : BuildInput) :
    List (String × String × String) :=
  (inp.targets.filter (fun t => t.envResolves)).flatMap (targetDirMentions w)

/-- The paths an invocation's edge would claim as outputs: its real
outputs plus the synthetic paths of its phony outputs. -/
def invOutputsAll (inv : Invocation) : List String :=
  inv.outputs ++ inv.phonyOutputs.map NinjaPhonyOutputTarget

/-- The begin phony edge of a target (NinjaExecutor.cpp lines 228-232). -/
def beginStmtOf (t : TargetInput) : Stmt :=
  Stmt.build [TargetNinjaBegin t.name] "phony"
    (t.dependencies.map TargetNinjaFinish) [] [] []

/-- The finish phony edge of a target (NinjaExecutor.cpp lines 267-286):
implicit inputs are the outputs of every invocation, order-only inputs the
synthetic phony outputs of every invocation. -/
def finishStmtOf (t : TargetInput) : Stmt :=
  Stmt.build [TargetNinjaFinish t.name] "phony" [] []
    ((t.invocations.map Invocation.outputs).flatten)
    ((t.invocations.map (fun inv => inv.phonyOutputs.map NinjaPhonyOutputTarget)).flatten)

/-- The statements of a target's sub-graph file when it is written. -/
def targetSubStmts (w : World) (t : TargetInput) : List Stmt :=
  [Stmt.comment "xcbuild ninja", Stmt.comment ("Target: " ++ t.name), Stmt.newline]
    ++ (t.invocations.map (fun inv =>
      (invocationStmts w (TargetNinjaBegin t.name) t.sdkExecutablePaths inv).1)).flatten

/-- The per-invocation diagnostics of a target. -/
def targetInvDiags (w : World) (t : TargetInput) : List String :=
  (t.invocations.map (fun inv =>
    (invocationStmts w (TargetNinjaBegin t.name) t.sdkExecutablePaths inv).2)).flatten

/-- The diagnostics one target contributes on a successful walk. -/
def targetDiags (w : World) (t : TargetInput) : List String :=
  if !t.envResolves then
    ["error: couldn't create target environment for " ++ t.name ++ "\n"]
  else
    targetInvDiags w t
      ++ ["Wrote " ++ t.name ++ " ninja: " ++ TargetNinjaPath t.targetTempDir ++ "\n"]

/-- The state transition of one successful target step. -/
def targetStep (w : World) (st : BuildState) (t : TargetInput) : BuildState :=
  if !t.envResolves then { st with rootStmts := st.rootStmts ++ [beginStmtOf t] }
  else
    { rootStmts := st.rootStmts ++ [beginStmtOf t]
        ++ (buildTargetOutputDirectories w t st.seenDirs).1
        ++ [Stmt.subninja (TargetNinjaPath t.targetTempDir), finishStmtOf t]
      seenDirs := (buildTargetOutputDirectories w t st.seenDirs).2
      subs := st.subs ++ [(TargetNinjaPath t.targetTempDir, targetSubStmts w t)] }

/-- The final state of an all-successful target walk. -/
def goState (w : World) : List TargetInput → BuildState → BuildState
  | [], st => st
  | t :: ts, st => goState w ts (targetStep w st t)

/-- First-occurrence deduplication of directory mentions by directory,
with an explicit seen list. -/
def dedupMentions : List (String × String × String) → List String →
    List (String × String × String)
  | [], _ => []
  | p :: ps, seen =>
      if seen.contains p.1 then dedupMentions ps seen
      else p :: dedupMentions ps (seen ++ [p.1])

/-- The root statements the target walk appends after the header, given
the seen directories at entry. -/
def rootTail (w : World) : List TargetInput → List String → List Stmt
  | [], _ => []
  | t :: ts, seen =>
      if !t.envResolves then beginStmtOf t :: rootTail w ts seen
      else beginStmtOf t :: ((buildTargetOutputDirectories w t seen).1
        ++ [Stmt.subninja (TargetNinjaPath t.targetTempDir), finishStmtOf t])
        ++ rootTail w ts (buildTargetOutputDirectories w t seen).2

/-- A concrete directory function for the test worlds: everything before
the final slash (empty when there is none). -/
def dirnameModel (p : String) : String :=
  String.mk (((p.toList.reverse.dropWhile (fun c => c ≠ '/')).drop 1).reverse)

/-- A concrete world in which every filesystem operation succeeds and
search-path lookups fail. -/
def testWorld : World where
  findExecutable := fun _ _ => ""
  createDirOk := fun _ => true
  openWriteOk := fun _ => true
  testForExecute := fun _ => true
  chmodOk := fun _ => true
  getDirectoryName := dirnameModel
  createAuxiliaryDirectoryMessage := fun d => "CreateDirectory " ++ d
  beginInvocationMessage := fun _ exe => "Invoke " ++ exe
  dryRun := false

/-- An invocation used twice in the duplicate-output counterexample. -/
def dupInvocation : Invocation :=
  { executable := "/bin/cp", outputs := ["/t/X"], workingDirectory := "/wd" }

/-- A target carrying two invocations with the same output path. -/
def dupTarget : TargetInput :=
  { name := "A", targetTempDir := "/tmpA", invocations := [dupInvocation, dupInvocation] }

/-- The duplicate-output build. -/
def dupBuildInput : BuildInput := { objroot := "/obj", targets := [dupTarget] }

/-- A two-target build with disjoint outputs. -/
def okTargetA : TargetInput :=
  { name := "A"
    targetTempDir := "/tA"
    invocations := [{ executable := "/bin/cc", outputs := ["/o/a.o"], workingDirectory := "/wd" }] }

/-- The dependent target of the two-target build. -/
def okTargetB : TargetInput :=
  { name := "B"
    dependencies := ["A"]
    targetTempDir := "/tB"
    invocations := [{ executable := "/bin/ld", outputs := ["/o/b"], workingDirectory := "/wd" }] }

/-- The two-target build input. -/
def okBuildInput : BuildInput := { objroot := "/obj", targets := [okTargetA, okTargetB] }

/-- A target whose single invocation has a builtin executable (which the
resolver maps to empty, so the invocation is skipped) but a real output. -/
def ghostTarget : TargetInput :=
  { name := "G"
    targetTempDir := "/tG"
    invocations := [{ executable := "builtin-copy", outputs := ["/g/ghost"], workingDirectory := "/wd" }] }

/-- The single-target build around `ghostTarget`. -/
def ghostBuildInput : BuildInput := { objroot := "/obj", targets := [ghostTarget] }

/-- A target whose environment does not resolve. -/
def envFailTarget : TargetInput := { name := "E", envResolves := false }

/-- A build mixing an environment-failing target with `ghostTarget`. -/
def mixedBuildInput : BuildInput :=
  { objroot := "/obj", targets := [envFailTarget, ghostTarget] }

/-- The graph emitted for the two-target build (for the witnesses). -/
def okGraph : NinjaGraph :=
  ((ninjaBuild testWorld okBuildInput).1).getD (NinjaGraph.mk [] [])

/-- The diagnostics emitted for the two-target build. -/
def okDiags : List String := (ninjaBuild testWorld okBuildInput).2

/-- The graph emitted for the ghost build (for C10). -/
def ghostGraph : NinjaGraph :=
  ((ninjaBuild testWorld ghostBuildInput).1).getD (NinjaGraph.mk [] [])

/-- The diagnostics of the ghost build. -/
def ghostDiags : List String := (ninjaBuild testWorld ghostBuildInput).2

/-- The invocations of all environment-resolving targets, in emission
order. -/
def allInvocationsOf (inp : BuildInput) : List Invocation :=
  (inp.targets.filter (fun t => t.envResolves)).flatMap TargetInput.invocations

/-- The same invocations paired with their targets. -/
def allInvPairs (inp : BuildInput) : List (TargetInput × Invocation) :=
  (inp.targets.filter (fun t => t.envResolves)).flatMap
    (fun t => t.invocations.map (fun inv => (t, inv)))

/-- Every real or synthetic output path any invocation-derived edge could
claim across the whole build. -/
def allOutputPathsOf (inp : BuildInput) : List String :=
  (allInvocationsOf inp).flatMap invOutputsAll

/- ### Theorems -/

/- ### Theorems -/

theorem shellEscape_safe_eq (v : String) (h : v.toList.all shellSafe = true) :
    ShellEscape v = v := by
  unfold ShellEscape
  rw [h]
  simp

theorem shellEscapeChar_length_pos (c : Char) : 1 ≤ (shellEscapeChar c).length := by
  by_cases h : c == '\''
  · simp [shellEscapeChar, h]
  · simp [shellEscapeChar, h]

theorem shellEscape_unsafe_length (v : String) (h : v.toList.all shellSafe = false) :
    v.length < (ShellEscape v).length := by
  have hlen : v.toList.length ≤ (v.toList.flatMap shellEscapeChar).length := by
    induction v.toList with
    | nil => simp
    | cons c cs ih =>
      simp only [List.flatMap_cons, List.length_append, List.length_cons]
      have := shellEscapeChar_length_pos c
      omega
  unfold ShellEscape
  rw [h]
  simp only [Bool.false_eq_true, if_false]
  have hq : ("'" : String).length = 1 := rfl
  have hmk : (String.mk (v.toList.flatMap shellEscapeChar)).length
      = (v.toList.flatMap shellEscapeChar).length := rfl
  have h1 : ("'" ++ String.mk (v.toList.flatMap shellEscapeChar) ++ "'").length
      = ("'" : String).length + (String.mk (v.toList.flatMap shellEscapeChar)).length
        + ("'" : String).length := by
    rw [String.length_append, String.length_append]
  have h2 : v.length = v.toList.length := rfl
  omega

theorem splitGo_insingle_close (l : List Char) (cur : List Char) (b : Bool) (acc : List String) :
    splitGo ('\'' :: l) ShMode.insingle cur b acc = splitGo l ShMode.outside cur b acc := rfl

theorem splitGo_outside_squote (l : List Char) (cur : List Char) (b : Bool) (acc : List String) :
    splitGo ('\'' :: l) ShMode.outside cur b acc = splitGo l ShMode.insingle cur true acc := by
  rw [splitGo.eq_def]
  simp

theorem splitGo_outside_dquote (l : List Char) (cur : List Char) (b : Bool) (acc : List String) :
    splitGo ('"' :: l) ShMode.outside cur b acc = splitGo l ShMode.indouble cur true acc := by
  rw [splitGo.eq_def]
  simp

theorem splitGo_indouble_squote (l : List Char) (cur : List Char) (b : Bool) (acc : List String) :
    splitGo ('\'' :: l) ShMode.indouble cur b acc
      = splitGo l ShMode.indouble (cur ++ ['\'']) b acc := by
  rw [splitGo.eq_def]
  simp

theorem splitGo_indouble_close (l : List Char) (cur : List Char) (b : Bool) (acc : List String) :
    splitGo ('"' :: l) ShMode.indouble cur b acc = splitGo l ShMode.outside cur b acc := by
  rw [splitGo.eq_def]
  simp

theorem splitGo_outside_space (l : List Char) (cur : List Char) (acc : List String) :
    splitGo (' ' :: l) ShMode.outside cur true acc
      = splitGo l ShMode.outside [] false (acc ++ [String.mk cur]) := by
  rw [splitGo.eq_def]
  simp

theorem splitGo_outside_plain (c : Char) (l cur : List Char) (b : Bool) (acc : List String)
    (h1 : (c == ' ') = false) (h2 : (c == '\t') = false) (h3 : (c == '\n') = false)
    (h4 : (c == '\'') = false) (h5 : (c == '"') = false) (h6 : (c == '\\') = false) :
    splitGo (c :: l) ShMode.outside cur b acc
      = splitGo l ShMode.outside (cur ++ [c]) true acc := by
  rw [splitGo.eq_def]
  simp [h1, h2, h3, h4, h5, h6]

theorem splitGo_insingle_plain (c : Char) (l cur : List Char) (b : Bool) (acc : List String)
    (h : (c == '\'') = false) :
    splitGo (c :: l) ShMode.insingle cur b acc
      = splitGo l ShMode.insingle (cur ++ [c]) b acc := by
  rw [splitGo.eq_def]
  simp [h]

theorem string_append_data (a b : String) : (a ++ b).data = a.data ++ b.data := rfl

theorem string_mk_data (s : String) : String.mk s.data = s := rfl

theorem shellSafe_not_special (c : Char) (h : shellSafe c = true) :
    (c == ' ') = false ∧ (c == '\t') = false ∧ (c == '\n') = false ∧
    (c == '\'') = false ∧ (c == '"') = false ∧ (c == '\\') = false := by
  have hm : c ∈ shellSafeChars := by
    have h2 : shellSafeChars.elem c = true := by simpa [shellSafe, List.contains] using h
    exact List.elem_iff.mp h2
  have hall : shellSafeChars.all (fun d =>
      !(d == ' ') && !(d == '\t') && !(d == '\n')
        && !(d == '\'') && !(d == '"') && !(d == '\\')) = true := by decide
  have hc := List.all_eq_true.mp hall c hm
  simp only [Bool.and_eq_true, Bool.not_eq_true'] at hc
  exact ⟨hc.1.1.1.1.1, hc.1.1.1.1.2, hc.1.1.1.2, hc.1.1.2, hc.1.2, hc.2⟩

theorem splitGo_safe_chars (cs : List Char) (h : cs.all shellSafe = true) :
    ∀ (l cur : List Char) (b : Bool) (acc : List String), cs ≠ [] →
      splitGo (cs ++ l) ShMode.outside cur b acc
        = splitGo l ShMode.outside (cur ++ cs) true acc := by
  induction cs with
  | nil => intro l cur b acc hne; exact absurd rfl hne
  | cons c cs ih =>
    intro l cur b acc _
    rw [List.all_cons, Bool.and_eq_true] at h
    obtain ⟨h1, h2, h3, h4, h5, h6⟩ := shellSafe_not_special c h.1
    rw [List.cons_append, splitGo_outside_plain c _ cur b acc h1 h2 h3 h4 h5 h6]
    cases cs with
    | nil => simp
    | cons d ds =>
      rw [ih h.2 l (cur ++ [c]) true acc (by simp)]
      simp

theorem splitGo_quote_body (cs : List Char) :
    ∀ (l cur : List Char) (acc : List String),
      splitGo (cs.flatMap shellEscapeChar ++ ('\'' :: l)) ShMode.insingle cur true acc
        = splitGo l ShMode.outside (cur ++ cs) true acc := by
  induction cs with
  | nil =>
    intro l cur acc
    simp [splitGo_insingle_close]
  | cons c cs ih =>
    intro l cur acc
    by_cases hc : c == '\''
    · have hc2 : c = '\'' := by simpa using hc
      subst hc2
      have hsq : shellEscapeChar '\'' = ['\'', '"', '\'', '"', '\''] := by decide
      rw [List.flatMap_cons, hsq]
      rw [List.append_assoc]
      rw [List.cons_append, splitGo_insingle_close]
      rw [List.cons_append, splitGo_outside_dquote]
      rw [List.cons_append, splitGo_indouble_squote]
      rw [List.cons_append, splitGo_indouble_close]
      rw [List.cons_append, splitGo_outside_squote]
      rw [List.nil_append, ih l (cur ++ ['\'']) acc]
      simp
    · have hcc : shellEscapeChar c = [c] := by simp [shellEscapeChar, hc]
      rw [List.flatMap_cons, hcc, List.append_assoc, List.cons_append,
        splitGo_insingle_plain c _ cur true acc (by simpa using hc)]
      rw [List.nil_append, ih l (cur ++ [c]) acc]
      simp

theorem string_ne_empty_toList (s : String) (h : s ≠ "") : s.toList ≠ [] := by
  intro hl
  apply h
  cases s with
  | mk data =>
    have : data = [] := hl
    subst this
    rfl

theorem shellEscape_unsafe_eq (v : String) (h : v.toList.all shellSafe = false) :
    ShellEscape v = "'" ++ String.mk (v.toList.flatMap shellEscapeChar) ++ "'" := by
  unfold ShellEscape
  rw [h]
  simp

theorem splitGo_escaped_word (s : String) (hne : s ≠ "") (l : List Char) (acc : List String) :
    splitGo ((ShellEscape s).toList ++ l) ShMode.outside [] false acc
      = splitGo l ShMode.outside s.toList true acc := by
  by_cases hs : s.toList.all shellSafe
  · rw [shellEscape_safe_eq s hs]
    have := splitGo_safe_chars s.toList hs l [] false acc (string_ne_empty_toList s hne)
    simpa using this
  · rw [shellEscape_unsafe_eq s (by simpa using hs)]
    have htl : ("'" ++ String.mk (s.toList.flatMap shellEscapeChar) ++ "'").toList
        = '\'' :: (s.toList.flatMap shellEscapeChar ++ ['\'']) := by
      show ("'" ++ String.mk (s.toList.flatMap shellEscapeChar) ++ "'").data = _
      rw [string_append_data, string_append_data]
      rfl
    rw [htl, List.cons_append, splitGo_outside_squote, List.append_assoc, List.cons_append,
      List.nil_append, splitGo_quote_body s.toList l [] acc]
    simp

theorem foldl_exec_toList (args : List String) :
    ∀ base : String,
      (args.foldl (fun acc arg => acc ++ " " ++ ShellEscape arg) base).toList
        = base.toList ++ args.flatMap (fun a => ' ' :: (ShellEscape a).toList) := by
  induction args with
  | nil => intro base; simp
  | cons a as ih =>
    intro base
    rw [List.foldl_cons, ih]
    show (base ++ " " ++ ShellEscape a).data ++ _ = base.data ++ _
    rw [string_append_data, string_append_data]
    simp

theorem splitGo_words (args : List String) (h : ∀ a ∈ args, a ≠ "") :
    ∀ (cur : List Char) (acc : List String),
      splitGo (args.flatMap (fun a => ' ' :: (ShellEscape a).toList))
          ShMode.outside cur true acc
        = some (acc ++ String.mk cur :: args) := by
  induction args with
  | nil =>
    intro cur acc
    rw [splitGo.eq_def]
    simp
  | cons a as ih =>
    intro cur acc
    rw [List.flatMap_cons, List.cons_append, splitGo_outside_space,
      splitGo_escaped_word a (h a (List.mem_cons_self a as)) _ (acc ++ [String.mk cur]),
      ih (fun b hb => h b (List.mem_cons_of_mem a hb)) a.toList (acc ++ [String.mk cur])]
    simp [string_mk_data]

theorem composeExec_roundTrip (exe : String) (args : List String)
    (hexe : exe ≠ "") (hargs : ∀ a ∈ args, a ≠ "") :
    shellSplit (composeExec exe args) = some (exe :: args) := by
  unfold shellSplit composeExec
  show splitGo (args.foldl (fun acc arg => acc ++ " " ++ ShellEscape arg)
      (ShellEscape exe)).data ShMode.outside [] false [] = _
  have hdata : (args.foldl (fun acc arg => acc ++ " " ++ ShellEscape arg)
      (ShellEscape exe)).toList
        = (ShellEscape exe).toList ++ args.flatMap (fun a => ' ' :: (ShellEscape a).toList) :=
    foldl_exec_toList args (ShellEscape exe)
  rw [show (args.foldl (fun acc arg => acc ++ " " ++ ShellEscape arg)
      (ShellEscape exe)).data = (args.foldl (fun acc arg => acc ++ " " ++ ShellEscape arg)
      (ShellEscape exe)).toList from rfl, hdata,
    splitGo_escaped_word exe hexe _ [], splitGo_words args hargs exe.toList []]
  simp [string_mk_data]

/-- C6: `ShellEscape` returns its input unchanged if and only if every
character of the input is in the safe set `[A-Za-z0-9@%_\-+=:,./]`; otherwise
it returns the input wrapped in single quotes with every embedded single
quote replaced by the five-character splice sequence; in particular the four
corner cases of the specification hold. -/
theorem claim_C6_shellEscape :
    (∀ v : String, ShellEscape v = v ↔ v.toList.all shellSafe = true)
    ∧ (∀ v : String, v.toList.all shellSafe = false →
        ShellEscape v = "'" ++ String.mk (v.toList.flatMap shellEscapeChar) ++ "'")
    ∧ ShellEscape "hello" = "hello"
    ∧ ShellEscape "hello world" = "'hello world'"
    ∧ ShellEscape "it's" = "'it'\"'\"'s'"
    ∧ ShellEscape "/usr/bin/ld" = "/usr/bin/ld" := by
  refine ⟨?_, shellEscape_unsafe_eq, by decide, by decide, by decide, by decide⟩
  intro v
  constructor
  · intro heq
    by_contra hne
    have hf : v.toList.all shellSafe = false := by
      cases hb : v.toList.all shellSafe
      · rfl
      · exact absurd hb hne
    have := shellEscape_unsafe_length v hf
    rw [heq] at this
    omega
  · exact shellEscape_safe_eq v

theorem claim_C6_shellEscape_witness :
    ("a b".toList.all shellSafe = false)
    ∧ ShellEscape "a b" = "'" ++ String.mk ("a b".toList.flatMap shellEscapeChar) ++ "'" :=
  ⟨by decide, claim_C6_shellEscape.2.1 "a b" (by decide)⟩

/-- C7 counterexample: the round trip fails on an empty argument string. The
emitted command for executable `/bin/ls` and argument vector `[""]` is
`/bin/ls ` (the empty argument is all-safe, so it escapes to itself), which
the shell splits into the single word `/bin/ls`, not the original
two-element vector. -/
theorem claim_C7_counterexample :
    composeExec "/bin/ls" [""] = "/bin/ls "
    ∧ shellSplit (composeExec "/bin/ls" [""]) = some ["/bin/ls"]
    ∧ shellSplit (composeExec "/bin/ls" [""]) ≠ some ["/bin/ls", ""] :=
  ⟨by decide, by decide, by decide⟩

/-- C7 (amended): for every nonempty resolved executable and every argument
vector whose entries are all nonempty, applying POSIX shell word-splitting
and quote removal to the emitted command string (the space-joined
`ShellEscape` of the executable and of each argument) yields exactly the
original executable-plus-argument vector. -/
theorem claim_C7_roundTrip (exe : String) (args : List String)
    (hexe : exe ≠ "") (hargs : ∀ a ∈ args, a ≠ "") :
    shellSplit (composeExec exe args) = some (exe :: args) :=
  composeExec_roundTrip exe args hexe hargs

theorem claim_C7_roundTrip_witness :
    ("/usr/bin/ld" ≠ "" ∧ ∀ a ∈ ["-o", "out file"], a ≠ "")
    ∧ shellSplit (composeExec "/usr/bin/ld" ["-o", "out file"])
        = some ["/usr/bin/ld", "-o", "out file"] :=
  ⟨⟨by decide, by decide⟩,
    claim_C7_roundTrip "/usr/bin/ld" ["-o", "out file"] (by decide) (by decide)⟩

theorem hexDigitChar_mem (n : Nat) : hexDigitChar n ∈ "0123456789abcdef".toList := by
  unfold hexDigitChar
  rw [List.getD_eq_getElem?_getD]
  rcases Nat.lt_or_ge n ("0123456789abcdef".toList.length) with h | h
  · rw [List.getElem?_eq_getElem h]
    exact List.getElem_mem h
  · rw [List.getElem?_eq_none h]
    decide

theorem hexByte_length (b : Nat) : (hexByte b).length = 2 := rfl

theorem stateBytes_length (st : Nat × Nat × Nat × Nat) : (stateBytes st).length = 16 := by
  simp [stateBytes, wordBytes]

theorem md5Bytes_length (bytes : List Nat) : (md5Bytes bytes).length = 16 :=
  stateBytes_length _

theorem flatMap_hexByte_length (l : List Nat) : (l.flatMap hexByte).length = 2 * l.length := by
  induction l with
  | nil => simp
  | cons b bs ih =>
    rw [List.flatMap_cons, List.length_append, hexByte_length, ih]
    simp [List.length_cons]
    omega

theorem md5HexDigest_length (s : String) : (md5HexDigest s).length = 32 := by
  show ((md5Bytes (strBytes s)).flatMap hexByte).length = 32
  rw [flatMap_hexByte_length, md5Bytes_length]

theorem md5HexDigest_lower_hex (s : String) :
    (md5HexDigest s).toList.all isLowerHex = true := by
  rw [List.all_eq_true]
  intro c hc
  have hc2 : c ∈ (md5Bytes (strBytes s)).flatMap hexByte := hc
  rw [List.mem_flatMap] at hc2
  obtain ⟨b, _, hb⟩ := hc2
  have : c = hexDigitChar (b / 16 % 16) ∨ c = hexDigitChar (b % 16) := by
    simpa [hexByte] using hb
  have hmem : c ∈ "0123456789abcdef".toList := by
    rcases this with h | h <;> exact h ▸ hexDigitChar_mem _
  have : ("0123456789abcdef".toList).elem c = true := List.elem_iff.mpr hmem
  simpa [isLowerHex, List.contains] using this

/-- C8: the synthetic phony-output function is a pure function of its input
string; its value is always the fixed 20-character prefix
`.ninja-phony-output-` followed by the 32-character lowercase-hexadecimal
md5 digest of the input, so equal inputs always collide by design. -/
theorem claim_C8_phonyOutputTarget :
    (∀ s t : String, s = t → NinjaPhonyOutputTarget s = NinjaPhonyOutputTarget t)
    ∧ (∀ s : String,
        NinjaPhonyOutputTarget s = ".ninja-phony-output-" ++ md5HexDigest s
        ∧ (md5HexDigest s).length = 32
        ∧ (md5HexDigest s).toList.all isLowerHex = true) := by
  refine ⟨fun s t h => by rw [h], fun s => ⟨rfl, md5HexDigest_length s, md5HexDigest_lower_hex s⟩⟩

theorem claim_C8_phonyOutputTarget_witness :
    ("x" : String) = "x"
    ∧ NinjaPhonyOutputTarget "x" = NinjaPhonyOutputTarget "x" :=
  ⟨rfl, claim_C8_phonyOutputTarget.1 "x" "x" rfl⟩

theorem frameworksArchStep_foldl (inp : FrameworksInput) (linker lexec : String)
    (largs : List String) (variant : String) (u : Bool) (dir name vpo : String) :
    ∀ (archs : List String) (acc : List PhaseInvocation × List String),
      archs.foldl (frameworksArchStep inp linker lexec largs variant u dir name vpo) acc
        = (acc.1 ++ archs.map (fun arch => PhaseInvocation.link linker
              (sourceOutputsFor inp variant arch) (inp.buildFiles variant arch)
              (if u then dir ++ "/" ++ arch ++ "/" ++ name else vpo) largs
              (variant, some arch) inp.workingDirectory lexec),
            acc.2 ++ (if u then archs.map
              (fun arch => dir ++ "/" ++ arch ++ "/" ++ name) else [])) := by
  intro archs
  induction archs with
  | nil => intro acc; simp
  | cons a as ih =>
    intro acc
    rw [List.foldl_cons, ih]
    cases u
    · simp [frameworksArchStep]
    · simp [frameworksArchStep]

/-- C3: `FrameworksResolver::Create` fails, returning no invocation list,
if and only if at least one of the four tool specs (ld, libtool, lipo,
dsymutil) cannot be looked up; on that failure exactly the linker-tools
diagnostic is written to standard error, and on success no diagnostic is
written. -/
theorem claim_C3_create_fails_iff (inp : FrameworksInput) :
    ((FrameworksResolver.Create inp).1 = none
      ↔ (inp.ld = none ∨ inp.libtool = none ∨ inp.lipo = none ∨ inp.dsymutil = none))
    ∧ ((FrameworksResolver.Create inp).1 = none →
        (FrameworksResolver.Create inp).2 = ["error: couldn't get linker tools\n"])
    ∧ ((FrameworksResolver.Create inp).1 ≠ none →
        (FrameworksResolver.Create inp).2 = []) := by
  rcases hld : inp.ld with _ | ld <;> rcases hlib : inp.libtool with _ | libtool <;>
    rcases hlipo : inp.lipo with _ | lipoTool <;>
    rcases hdsym : inp.dsymutil with _ | dsymutilTool <;>
    simp [FrameworksResolver.Create, hld, hlib, hlipo, hdsym]

theorem claim_C3_create_fails_iff_witness :
    ((FrameworksResolver.Create fwTestInputMissing).1 = none
      ∧ (FrameworksResolver.Create fwTestInputMissing).2
        = ["error: couldn't get linker tools\n"]) :=
  ⟨(claim_C3_create_fails_iff fwTestInputMissing).1.mpr (Or.inr (Or.inr (Or.inl rfl))),
    (claim_C3_create_fails_iff fwTestInputMissing).2.1
      ((claim_C3_create_fails_iff fwTestInputMissing).1.mpr (Or.inr (Or.inr (Or.inl rfl))))⟩

/-- C4: per variant, with more than one architecture the resolver emits one
link invocation per architecture into the per-architecture intermediates
path, then exactly one lipo invocation whose inputs are exactly those
per-architecture outputs in architecture order with no library files and
whose single output is the variant products output; with exactly one
architecture the single link invocation produces the variant products
output directly and no lipo invocation is emitted; within a variant the
emission order is links, then lipo, then dsym; and on success `Create`
returns exactly the per-variant lists concatenated in variant order. -/
theorem claim_C4_link_lipo_structure (inp : FrameworksInput) (linker lexec : String)
    (largs : List String) (lipoTool dsymutilTool binaryType productsDirectory variant : String) :
    (1 < inp.architectures.length →
      frameworksVariantInvocations inp linker lexec largs lipoTool dsymutilTool
          binaryType productsDirectory variant
        = inp.architectures.map (fun arch => PhaseInvocation.link linker
              (sourceOutputsFor inp variant arch) (inp.buildFiles variant arch)
              (variantIntermediatesDirectoryOf inp variant ++ "/" ++ arch ++ "/"
                ++ variantIntermediatesNameOf inp variant) largs (variant, some arch)
              inp.workingDirectory lexec)
            ++ [PhaseInvocation.link lipoTool
                (inp.architectures.map (fun arch =>
                  variantIntermediatesDirectoryOf inp variant ++ "/" ++ arch ++ "/"
                    ++ variantIntermediatesNameOf inp variant)) []
                (variantProductsOutputOf inp productsDirectory variant) []
                (variant, none) inp.workingDirectory ""]
            ++ (if dsymCondition inp binaryType variant then
                [PhaseInvocation.tool dsymutilTool
                  [variantProductsOutputOf inp productsDirectory variant]
                  [dsymOutputOf inp variant] (variant, none) inp.workingDirectory]
              else []))
    ∧ (inp.architectures.length = 1 →
        frameworksVariantInvocations inp linker lexec largs lipoTool dsymutilTool
            binaryType productsDirectory variant
          = inp.architectures.map (fun arch => PhaseInvocation.link linker
                (sourceOutputsFor inp variant arch) (inp.buildFiles variant arch)
                (variantProductsOutputOf inp productsDirectory variant) largs
                (variant, some arch) inp.workingDirectory lexec)
              ++ (if dsymCondition inp binaryType variant then
                  [PhaseInvocation.tool dsymutilTool
                    [variantProductsOutputOf inp productsDirectory variant]
                    [dsymOutputOf inp variant] (variant, none) inp.workingDirectory]
                else []))
    ∧ (∀ ld libtool lipoT dsymT, inp.ld = some ld → inp.libtool = some libtool →
        inp.lipo = some lipoT → inp.dsymutil = some dsymT →
        (FrameworksResolver.Create inp).1
          = some ((inp.variants.map (frameworksVariantInvocations inp
              (linkerChoiceOf inp ld libtool (inp.resolveTarget "MACH_O_TYPE")).1
              (linkerChoiceOf inp ld libtool (inp.resolveTarget "MACH_O_TYPE")).2.1
              (linkerChoiceOf inp ld libtool (inp.resolveTarget "MACH_O_TYPE")).2.2
              lipoT dsymT (inp.resolveTarget "MACH_O_TYPE")
              (inp.resolveTarget "BUILT_PRODUCTS_DIR"))).flatten)) := by
  refine ⟨?_, ?_, ?_⟩
  · intro h
    have hu : decide (1 < inp.architectures.length) = true := decide_eq_true h
    unfold frameworksVariantInvocations
    simp only [hu, if_true]
    rw [frameworksArchStep_foldl]
    simp
  · intro h
    have hu : decide (1 < inp.architectures.length) = false := by
      rw [h]
      decide
    unfold frameworksVariantInvocations
    simp only [hu, Bool.false_eq_true, if_false]
    rw [frameworksArchStep_foldl]
    simp
  · intro ld libtool lipoT dsymT h1 h2 h3 h4
    simp [FrameworksResolver.Create, h1, h2, h3, h4, createInvocations]

theorem claim_C4_link_lipo_structure_witness :
    1 < fwTestInput.architectures.length
    ∧ frameworksVariantInvocations fwTestInput "ld" "clang" ["-lSystem"] "lipo" "dsym"
        "mh_execute" "/prod" "normal"
      = fwTestInput.architectures.map (fun arch => PhaseInvocation.link "ld"
            (sourceOutputsFor fwTestInput "normal" arch) (fwTestInput.buildFiles "normal" arch)
            (variantIntermediatesDirectoryOf fwTestInput "normal" ++ "/" ++ arch ++ "/"
              ++ variantIntermediatesNameOf fwTestInput "normal") ["-lSystem"]
            ("normal", some arch) fwTestInput.workingDirectory "clang")
          ++ [PhaseInvocation.link "lipo"
              (fwTestInput.architectures.map (fun arch =>
                variantIntermediatesDirectoryOf fwTestInput "normal" ++ "/" ++ arch ++ "/"
                  ++ variantIntermediatesNameOf fwTestInput "normal")) []
              (variantProductsOutputOf fwTestInput "/prod" "normal") []
              ("normal", none) fwTestInput.workingDirectory ""]
          ++ (if dsymCondition fwTestInput "mh_execute" "normal" then
              [PhaseInvocation.tool "dsym"
                [variantProductsOutputOf fwTestInput "/prod" "normal"]
                [dsymOutputOf fwTestInput "normal"] ("normal", none)
                fwTestInput.workingDirectory]
            else []) :=
  ⟨by decide, (claim_C4_link_lipo_structure fwTestInput "ld" "clang" ["-lSystem"]
    "lipo" "dsym" "mh_execute" "/prod" "normal").1 (by decide)⟩

/-- C5: per variant the resolver emits a dsymutil invocation exactly when
`DEBUG_INFORMATION_FORMAT` resolves in the variant environment to
`dwarf-with-dsym` and the binary type is neither `staticlib` nor
`mh_object`; when emitted its input is the variant products output, its
output is `DWARF_DSYM_FOLDER_PATH + "/" + DWARF_DSYM_FILE_NAME`, and it is
the last invocation emitted for the variant. -/
theorem claim_C5_dsym (inp : FrameworksInput) (linker lexec : String)
    (largs : List String) (lipoTool dsymutilTool binaryType productsDirectory variant : String) :
    ((frameworksVariantInvocations inp linker lexec largs lipoTool dsymutilTool
        binaryType productsDirectory variant).countP isToolInvocation
      = if dsymCondition inp binaryType variant then 1 else 0)
    ∧ (dsymCondition inp binaryType variant = true →
        (frameworksVariantInvocations inp linker lexec largs lipoTool dsymutilTool
            binaryType productsDirectory variant).getLast?
          = some (PhaseInvocation.tool dsymutilTool
              [variantProductsOutputOf inp productsDirectory variant]
              [dsymOutputOf inp variant] (variant, none) inp.workingDirectory))
    ∧ (dsymCondition inp binaryType variant
        = (inp.resolveVariant variant "DEBUG_INFORMATION_FORMAT" == "dwarf-with-dsym"
            && !(binaryType == "staticlib") && !(binaryType == "mh_object"))) := by
  refine ⟨?_, ?_, rfl⟩
  · unfold frameworksVariantInvocations
    simp only [List.countP_append]
    rw [frameworksArchStep_foldl]
    cases hu : decide (1 < inp.architectures.length) <;>
      cases hd : dsymCondition inp binaryType variant <;>
      simp [hu, hd, isToolInvocation, List.countP_eq_zero]
  · intro hd
    unfold frameworksVariantInvocations
    simp only [hd, if_true]
    rw [List.getLast?_concat]

theorem claim_C5_dsym_witness :
    dsymCondition fwTestInput "mh_execute" "normal" = true
    ∧ (frameworksVariantInvocations fwTestInput "ld" "clang" ["-lSystem"] "lipo" "dsym"
        "mh_execute" "/prod" "normal").getLast?
      = some (PhaseInvocation.tool "dsym"
          [variantProductsOutputOf fwTestInput "/prod" "normal"]
          [dsymOutputOf fwTestInput "normal"] ("normal", none)
          fwTestInput.workingDirectory) :=
  ⟨by decide, (claim_C5_dsym fwTestInput "ld" "clang" ["-lSystem"] "lipo" "dsym"
    "mh_execute" "/prod" "normal").2.1 (by decide)⟩

theorem buildTargetInvocations_ok (w : World) (t : TargetInput)
    (h : targetWritesOk w t = true) :
    buildTargetInvocations w t
      = (some (TargetNinjaPath t.targetTempDir, targetSubStmts w t),
        targetInvDiags w t
          ++ ["Wrote " ++ t.name ++ " ninja: " ++ TargetNinjaPath t.targetTempDir ++ "\n"]) := by
  unfold targetWritesOk at h
  rw [Bool.and_eq_true] at h
  unfold buildTargetInvocations
  rw [h.1]
  simp [h.2, targetSubStmts, targetInvDiags, Function.comp_def]

theorem buildTargetInvocations_fail (w : World) (t : TargetInput)
    (h : targetWritesOk w t = false) :
    (buildTargetInvocations w t).1 = none := by
  unfold targetWritesOk at h
  unfold buildTargetInvocations
  cases ha : buildTargetAuxiliaryFiles w t.invocations with
  | false => simp [ha]
  | true =>
      rw [ha] at h
      simp only [Bool.true_and] at h
      simp [ha, h]

theorem buildTarget_env_fail (w : World) (st : BuildState) (t : TargetInput)
    (h : t.envResolves = false) :
    buildTarget w st t
      = (some { st with rootStmts := st.rootStmts ++ [beginStmtOf t] },
        ["error: couldn't create target environment for " ++ t.name ++ "\n"]) := by
  unfold buildTarget
  rw [h]
  simp [beginStmtOf]

theorem buildTarget_ok (w : World) (st : BuildState) (t : TargetInput)
    (henv : t.envResolves = true) (hw : targetWritesOk w t = true) :
    buildTarget w st t = (some (targetStep w st t), targetDiags w t) := by
  unfold buildTarget
  rw [henv, buildTargetInvocations_ok w t hw]
  simp [targetStep, targetDiags, henv, beginStmtOf, finishStmtOf]

theorem buildTarget_write_fail (w : World) (st : BuildState) (t : TargetInput)
    (henv : t.envResolves = true) (hw : targetWritesOk w t = false) :
    (buildTarget w st t).1 = none := by
  unfold buildTarget
  rw [henv]
  have := buildTargetInvocations_fail w t hw
  rcases hb : buildTargetInvocations w t with ⟨r, ds⟩
  rw [hb] at this
  simp at this
  subst this
  simp

theorem ninjaBuildGo_isSome (w : World) :
    ∀ (ts : List TargetInput) (st : BuildState),
      (ninjaBuildGo w ts st).1.isSome
        = (ts.filter (fun t => t.envResolves)).all (targetWritesOk w) := by
  intro ts
  induction ts with
  | nil => intro st; simp [ninjaBuildGo]
  | cons t ts ih =>
    intro st
    cases henv : t.envResolves with
    | false =>
        rw [ninjaBuildGo, buildTarget_env_fail w st t henv]
        simp only [List.filter_cons, henv, Bool.false_eq_true, if_false]
        rcases hgo : ninjaBuildGo w ts { st with rootStmts := st.rootStmts ++ [beginStmtOf t] }
          with ⟨r, ds⟩
        have := ih { st with rootStmts := st.rootStmts ++ [beginStmtOf t] }
        rw [hgo] at this
        simpa using this
    | true =>
        cases hw : targetWritesOk w t with
        | false =>
            rw [ninjaBuildGo]
            have := buildTarget_write_fail w st t henv hw
            rcases hb : buildTarget w st t with ⟨r, ds⟩
            rw [hb] at this
            simp only at this
            subst this
            simp [List.filter_cons, henv, List.all_cons, hw]
        | true =>
            rw [ninjaBuildGo, buildTarget_ok w st t henv hw]
            simp only
            rcases hgo : ninjaBuildGo w ts (targetStep w st t) with ⟨r, ds⟩
            have := ih (targetStep w st t)
            rw [hgo] at this
            simp only at this
            simp [List.filter_cons, henv, List.all_cons, hw, this]

theorem ninjaBuildGo_all_ok (w : World) :
    ∀ (ts : List TargetInput) (st : BuildState),
      (ts.filter (fun t => t.envResolves)).all (targetWritesOk w) = true →
      ninjaBuildGo w ts st = (some (goState w ts st), (ts.map (targetDiags w)).flatten) := by
  intro ts
  induction ts with
  | nil => intro st _; simp [ninjaBuildGo, goState]
  | cons t ts ih =>
    intro st hall
    cases henv : t.envResolves with
    | false =>
        rw [List.filter_cons] at hall
        rw [henv] at hall
        simp only [Bool.false_eq_true, if_false] at hall
        rw [ninjaBuildGo, buildTarget_env_fail w st t henv]
        dsimp only
        rw [ih _ hall]
        simp only [List.map_cons, List.flatten_cons]
        have hstep : targetStep w st t
            = { st with rootStmts := st.rootStmts ++ [beginStmtOf t] } := by
          unfold targetStep
          rw [henv]
          simp
        rw [goState, hstep]
        simp [targetDiags, henv]
    | true =>
        rw [List.filter_cons] at hall
        rw [henv] at hall
        simp only [if_true, List.all_cons, Bool.and_eq_true] at hall
        rw [ninjaBuildGo, buildTarget_ok w st t henv hall.1]
        dsimp only
        rw [ih _ hall.2]
        simp [goState]

theorem ninjaBuild_isSome (w : World) (inp : BuildInput) :
    (ninjaBuild w inp).1.isSome = buildWritesOk w inp := by
  unfold ninjaBuild buildWritesOk
  rcases hgo : ninjaBuildGo w inp.targets
      { rootStmts := rootHeader inp, seenDirs := [], subs := [] } with ⟨r, ds⟩
  have hs := ninjaBuildGo_isSome w inp.targets
    { rootStmts := rootHeader inp, seenDirs := [], subs := [] }
  rw [hgo] at hs
  cases r with
  | none =>
      simp only [Option.isSome_none] at hs
      simp [← hs]
  | some st =>
      simp only [Option.isSome_some] at hs
      cases hwr : WriteNinjaOk w (inp.objroot ++ "/" ++ "build.ninja") <;>
        simp [hwr, ← hs]

theorem ninjaBuild_ok_char (w : World) (inp : BuildInput)
    (h : buildWritesOk w inp = true) :
    ninjaBuild w inp
      = (some (NinjaGraph.mk
          (goState w inp.targets
            { rootStmts := rootHeader inp, seenDirs := [], subs := [] }).rootStmts
          (goState w inp.targets
            { rootStmts := rootHeader inp, seenDirs := [], subs := [] }).subs),
        (inp.targets.map (targetDiags w)).flatten
          ++ ["Wrote meta-ninja: " ++ (inp.objroot ++ "/" ++ "build.ninja") ++ "\n"]) := by
  unfold buildWritesOk at h
  rw [Bool.and_eq_true] at h
  unfold ninjaBuild
  rw [ninjaBuildGo_all_ok w inp.targets _ h.1]
  dsimp only
  simp [h.2]

theorem goState_subs (w : World) :
    ∀ (ts : List TargetInput) (st : BuildState),
      (goState w ts st).subs
        = st.subs ++ (ts.filter (fun t => t.envResolves)).map
            (fun t => (TargetNinjaPath t.targetTempDir, targetSubStmts w t)) := by
  intro ts
  induction ts with
  | nil => intro st; simp [goState]
  | cons t ts ih =>
    intro st
    rw [goState, ih]
    cases henv : t.envResolves with
    | false =>
        have : (targetStep w st t).subs = st.subs := by
          unfold targetStep
          rw [henv]
          simp
        rw [this, List.filter_cons]
        simp [henv]
    | true =>
        have : (targetStep w st t).subs
            = st.subs ++ [(TargetNinjaPath t.targetTempDir, targetSubStmts w t)] := by
          unfold targetStep
          rw [henv]
          simp
        rw [this, List.filter_cons]
        simp [henv]

theorem goState_root (w : World) :
    ∀ (ts : List TargetInput) (st : BuildState),
      (goState w ts st).rootStmts = st.rootStmts ++ rootTail w ts st.seenDirs := by
  intro ts
  induction ts with
  | nil => intro st; simp [goState, rootTail]
  | cons t ts ih =>
    intro st
    rw [goState, ih]
    cases henv : t.envResolves with
    | false =>
        have h1 : (targetStep w st t).rootStmts = st.rootStmts ++ [beginStmtOf t] := by
          unfold targetStep
          rw [henv]
          simp
        have h2 : (targetStep w st t).seenDirs = st.seenDirs := by
          unfold targetStep
          rw [henv]
          simp
        rw [h1, h2, rootTail]
        simp [henv]
    | true =>
        have h1 : (targetStep w st t).rootStmts
            = st.rootStmts ++ [beginStmtOf t]
              ++ (buildTargetOutputDirectories w t st.seenDirs).1
              ++ [Stmt.subninja (TargetNinjaPath t.targetTempDir), finishStmtOf t] := by
          unfold targetStep
          rw [henv]
          simp
        have h2 : (targetStep w st t).seenDirs
            = (buildTargetOutputDirectories w t st.seenDirs).2 := by
          unfold targetStep
          rw [henv]
          simp
        rw [h1, h2, rootTail]
        simp [henv]

theorem dirFold_char (w : World) :
    ∀ (ps : List (String × String × String)) (stmts : List Stmt) (seen : List String),
      ps.foldl (dirMentionStep w) (stmts, seen)
        = (stmts ++ (dedupMentions ps seen).map (dirEdge w),
          seen ++ (dedupMentions ps seen).map (fun p => p.1)) := by
  intro ps
  induction ps with
  | nil => intro stmts seen; simp [dedupMentions]
  | cons p ps ih =>
    intro stmts seen
    rw [List.foldl_cons]
    cases hc : seen.contains p.1 with
    | true =>
        have hm : p.1 ∈ seen := by simpa using hc
        have hstep : dirMentionStep w (stmts, seen) p = (stmts, seen) := by
          unfold dirMentionStep
          simp [hm]
        rw [hstep, ih, dedupMentions]
        simp [hc, hm]
    | false =>
        have hm : p.1 ∉ seen := by simpa using hc
        have hstep : dirMentionStep w (stmts, seen) p
            = (stmts ++ [dirEdge w p], seen ++ [p.1]) := by
          unfold dirMentionStep
          simp [hm]
        rw [hstep, ih, dedupMentions]
        simp [hc, hm]

theorem dedupMentions_append :
    ∀ (a b : List (String × String × String)) (seen : List String),
      dedupMentions (a ++ b) seen
        = dedupMentions a seen
          ++ dedupMentions b (seen ++ (dedupMentions a seen).map (fun p => p.1)) := by
  intro a
  induction a with
  | nil => intro b seen; simp [dedupMentions]
  | cons p a ih =>
    intro b seen
    rw [List.cons_append]
    cases hc : seen.contains p.1 with
    | true =>
        rw [dedupMentions, dedupMentions]
        simp only [hc, if_true]
        exact ih b seen
    | false =>
        rw [dedupMentions, dedupMentions]
        simp only [hc, Bool.false_eq_true, if_false]
        rw [ih b (seen ++ [p.1])]
        simp [List.append_assoc]

theorem dedupMentions_filter_key (d : String) :
    ∀ (ps : List (String × String × String)) (seen : List String),
      (dedupMentions ps seen).filter (fun q => q.1 == d)
        = if seen.contains d then [] else (ps.find? (fun q => q.1 == d)).toList := by
  intro ps
  induction ps with
  | nil => intro seen; simp [dedupMentions]
  | cons p ps ih =>
    intro seen
    cases hc : seen.contains p.1 with
    | true =>
        have hm : p.1 ∈ seen := by simpa using hc
        rw [dedupMentions]
        simp only [hc, if_true]
        rw [ih seen]
        by_cases hpd : (p.1 == d) = true
        · have heq : p.1 = d := by simpa using hpd
          have hdm : d ∈ seen := heq ▸ hm
          have hd : seen.contains d = true := by simpa using hdm
          simp [hd, hdm]
        · have hne : p.1 ≠ d := by simpa using hpd
          rw [List.find?_cons_of_neg _ (by simpa using hne)]
    | false =>
        have hm : p.1 ∉ seen := by simpa using hc
        rw [dedupMentions]
        simp only [hc, Bool.false_eq_true, if_false]
        by_cases hpd : (p.1 == d) = true
        · have heq : p.1 = d := by simpa using hpd
          rw [List.filter_cons_of_pos (by simpa using hpd)]
          rw [ih (seen ++ [p.1])]
          have hdm : d ∈ seen ++ [p.1] := List.mem_append.mpr (Or.inr (by simp [heq.symm]))
          have hcontains : (seen ++ [p.1]).contains d = true := by simpa using hdm
          rw [hcontains]
          have hcd : seen.contains d = false := by
            rw [heq] at hc
            exact hc
          rw [List.find?_cons_of_pos _ (by simpa using hpd)]
          have hcdm : d ∉ seen := by simpa using hcd
          simp [hcdm]
        · have hne : p.1 ≠ d := by simpa using hpd
          rw [List.filter_cons_of_neg (by simpa using hne)]
          rw [ih (seen ++ [p.1])]
          have hcontains : (seen ++ [p.1]).contains d = seen.contains d := by
            cases hsd : seen.contains d
            · have h1 : d ∉ seen := by simpa using hsd
              have h2 : d ∉ seen ++ [p.1] := by
                intro hmem
                rcases List.mem_append.mp hmem with h3 | h3
                · exact h1 h3
                · have : d = p.1 := by simpa using h3
                  exact hne this.symm
              simpa using h2
            · have hdm : d ∈ seen := by simpa using hsd
              have h2 : d ∈ seen ++ [p.1] := List.mem_append.mpr (Or.inl hdm)
              simpa using h2
          rw [hcontains, List.find?_cons_of_neg _ (by simpa using hne)]

theorem isInvoke_begin (t : TargetInput) :
    stmtIsBuildWithRule NinjaRuleName (beginStmtOf t) = false := by
  show (("phony" : String) == NinjaRuleName) = false
  decide

theorem isInvoke_finish (t : TargetInput) :
    stmtIsBuildWithRule NinjaRuleName (finishStmtOf t) = false := by
  show (("phony" : String) == NinjaRuleName) = false
  decide

theorem isInvoke_subninja (p : String) :
    stmtIsBuildWithRule NinjaRuleName (Stmt.subninja p) = false := rfl

theorem isInvoke_dirEdge (w : World) (q : String × String × String) :
    stmtIsBuildWithRule NinjaRuleName (dirEdge w q) = true := by
  show ((NinjaRuleName : String) == NinjaRuleName) = true
  decide

theorem buildTargetOutputDirectories_char (w : World) (t : TargetInput)
    (seen : List String) :
    buildTargetOutputDirectories w t seen
      = ((dedupMentions (targetDirMentions w t) seen).map (dirEdge w),
        seen ++ (dedupMentions (targetDirMentions w t) seen).map (fun p => p.1)) := by
  unfold buildTargetOutputDirectories
  rw [dirFold_char]
  simp

theorem rootTail_filter_invoke (w : World) :
    ∀ (ts : List TargetInput) (seen : List String),
      (rootTail w ts seen).filter (stmtIsBuildWithRule NinjaRuleName)
        = (dedupMentions ((ts.filter (fun t => t.envResolves)).flatMap
            (targetDirMentions w)) seen).map (dirEdge w) := by
  intro ts
  induction ts with
  | nil => intro seen; simp [rootTail, dedupMentions]
  | cons t ts ih =>
    intro seen
    cases henv : t.envResolves with
    | false =>
        rw [rootTail]
        simp only [henv, Bool.not_false, if_true]
        rw [List.filter_cons_of_neg (by simp [isInvoke_begin])]
        rw [ih seen, List.filter_cons]
        simp [henv]
    | true =>
        have hrt : rootTail w (t :: ts) seen
            = (beginStmtOf t :: ((buildTargetOutputDirectories w t seen).1
              ++ [Stmt.subninja (TargetNinjaPath t.targetTempDir), finishStmtOf t]))
              ++ rootTail w ts (buildTargetOutputDirectories w t seen).2 := by
          rw [rootTail]
          simp [henv]
        rw [hrt, buildTargetOutputDirectories_char]
        simp only
        rw [List.filter_append, List.filter_cons_of_neg (by simp [isInvoke_begin]),
          List.filter_append]
        have hdirs : ((dedupMentions (targetDirMentions w t) seen).map
            (dirEdge w)).filter (stmtIsBuildWithRule NinjaRuleName)
            = (dedupMentions (targetDirMentions w t) seen).map (dirEdge w) := by
          apply List.filter_eq_self.mpr
          intro a ha
          rcases List.mem_map.mp ha with ⟨q, _, rfl⟩
          exact isInvoke_dirEdge w q
        have hsf : ([Stmt.subninja (TargetNinjaPath t.targetTempDir),
            finishStmtOf t]).filter (stmtIsBuildWithRule NinjaRuleName) = [] := by
          rw [List.filter_cons_of_neg (by simp [isInvoke_subninja])]
          rw [List.filter_cons_of_neg (by simp [isInvoke_finish])]
          rfl
        rw [hdirs, hsf, ih]
        rw [List.filter_cons]
        simp only [henv, if_true]
        rw [List.flatMap_cons, dedupMentions_append]
        simp

theorem rootHeader_filter_invoke (inp : BuildInput) :
    (rootHeader inp).filter (stmtIsBuildWithRule NinjaRuleName) = [] := by
  unfold rootHeader
  cases inp.workspaceFile <;> cases inp.projectFile <;> cases inp.schemeName <;>
    simp [stmtIsBuildWithRule]

theorem ninjaBuild_graph_char (w : World) (inp : BuildInput) (g : NinjaGraph)
    (ds : List String) (h : ninjaBuild w inp = (some g, ds)) :
    g.root = rootHeader inp ++ rootTail w inp.targets []
    ∧ g.subs = (inp.targets.filter (fun t => t.envResolves)).map
        (fun t => (TargetNinjaPath t.targetTempDir, targetSubStmts w t))
    ∧ ds = (inp.targets.map (targetDiags w)).flatten
        ++ ["Wrote meta-ninja: " ++ (inp.objroot ++ "/" ++ "build.ninja") ++ "\n"] := by
  have hok : buildWritesOk w inp = true := by
    have hs := ninjaBuild_isSome w inp
    rw [h] at hs
    simpa using hs.symm
  have hchar := ninjaBuild_ok_char w inp hok
  rw [h] at hchar
  rw [Prod.mk.injEq] at hchar
  have hg := Option.some.inj hchar.1
  refine ⟨?_, ?_, hchar.2⟩
  · rw [hg]
    show (goState w inp.targets
        { rootStmts := rootHeader inp, seenDirs := [], subs := [] }).rootStmts = _
    rw [goState_root]
  · rw [hg]
    show (goState w inp.targets
        { rootStmts := rootHeader inp, seenDirs := [], subs := [] }).subs = _
    rw [goState_subs]
    simp

theorem flatMap_find?_first {α β : Type} (f : α → List β) (p : β → Bool) :
    ∀ l : List α,
      (l.flatMap f).find? p
        = (l.find? (fun a => (f a).any p)).bind (fun a => (f a).find? p) := by
  intro l
  induction l with
  | nil => simp
  | cons a l ih =>
    rw [List.flatMap_cons, List.find?_append, ih]
    cases hany : (f a).any p with
    | true =>
        obtain ⟨b, hb, hpb⟩ := List.any_eq_true.mp hany
        have hsome : ∃ c, (f a).find? p = some c := by
          cases hf : (f a).find? p with
          | none =>
              have := List.find?_eq_none.mp hf b hb
              exact absurd hpb this
          | some c => exact ⟨c, rfl⟩
        obtain ⟨c, hc⟩ := hsome
        rw [hc, List.find?_cons_of_pos _ (by simpa using hany)]
        simp [hc]
    | false =>
        have hnone : (f a).find? p = none := by
          cases hf : (f a).find? p with
          | none => rfl
          | some b =>
              have hpb := List.find?_some hf
              have hmem := List.mem_of_find?_eq_some hf
              have : (f a).any p = true := List.any_eq_true.mpr ⟨b, hmem, hpb⟩
              rw [hany] at this
              exact absurd this (by simp)
        rw [hnone, List.find?_cons_of_neg _ (by simp [hany])]
        simp

theorem targetDirMentions_third (w : World) (t : TargetInput)
    (q : String × String × String) (h : q ∈ targetDirMentions w t) :
    q.2.2 = TargetNinjaBegin t.name := by
  unfold targetDirMentions at h
  rcases List.mem_flatMap.mp h with ⟨inv, _, hq⟩
  rcases List.mem_map.mp hq with ⟨o, _, rfl⟩
  rfl

theorem string_beq_symm (a b : String) : (a == b) = (b == a) := by
  by_cases h : a = b
  · simp [h]
  · simp [h, Ne.symm h]

/-- C2: on a successful build, for every directory d of a real output of
any invocation of any environment-resolving target, the root graph holds
exactly one directory-creation (`invoke`) build edge with output d; it is
the edge of the first mention of d (first target, first invocation, first
output), its command is `/bin/mkdir -p` with the shell-escaped directory,
its `dir` binding is that mentioning invocation's working directory, and
it order-depends on the begin node of the first target mentioning d; later
mentions add no edge. -/
theorem claim_C2_mkdir_unique (w : World) (inp : BuildInput) (g : NinjaGraph)
    (ds : List String) (d : String)
    (hbuild : ninjaBuild w inp = (some g, ds))
    (hd : d ∈ (buildDirMentions w inp).map (fun q => q.1)) :
    ∃ p t0,
      (buildDirMentions w inp).find? (fun q => q.1 == d) = some p
      ∧ p.1 = d
      ∧ (inp.targets.filter (fun t => t.envResolves)).find?
          (fun t => (targetDirMentions w t).any (fun q => q.1 == d)) = some t0
      ∧ p.2.2 = TargetNinjaBegin t0.name
      ∧ (g.root.filter (stmtIsBuildWithRule NinjaRuleName)).filter
          (fun s => (stmtOutputs s).contains d)
        = [Stmt.build [d] NinjaRuleName []
            [("description", NinjaDescription (w.createAuxiliaryDirectoryMessage d)),
             ("dir", ShellEscape p.2.1),
             ("exec", "/bin/mkdir -p " ++ ShellEscape d)]
            [] [TargetNinjaBegin t0.name]] := by
  rcases List.mem_map.mp hd with ⟨q, hqmem, hqd⟩
  have hfind : ∃ p, (buildDirMentions w inp).find? (fun r => r.1 == d) = some p := by
    cases hf : (buildDirMentions w inp).find? (fun r => r.1 == d) with
    | none =>
        have := List.find?_eq_none.mp hf q hqmem
        exact absurd (by simpa using hqd) this
    | some p => exact ⟨p, rfl⟩
  obtain ⟨p, hp⟩ := hfind
  have hkey : (p.1 == d) = true := by
    have := @List.find?_some _ (fun r => r.1 == d) p (buildDirMentions w inp) hp
    simpa using this
  have hp1 : p.1 = d := by simpa using hkey
  have hsplit := flatMap_find?_first (targetDirMentions w) (fun r => r.1 == d)
    (inp.targets.filter (fun t => t.envResolves))
  unfold buildDirMentions at hp
  rw [hp] at hsplit
  have ht0 : ∃ t0, (inp.targets.filter (fun t => t.envResolves)).find?
      (fun t => (targetDirMentions w t).any (fun r => r.1 == d)) = some t0 := by
    cases hf : (inp.targets.filter (fun t => t.envResolves)).find?
        (fun t => (targetDirMentions w t).any (fun r => r.1 == d)) with
    | none =>
        rw [hf] at hsplit
        simp at hsplit
    | some t0 => exact ⟨t0, rfl⟩
  obtain ⟨t0, ht0⟩ := ht0
  have hpt0 : (targetDirMentions w t0).find? (fun r => r.1 == d) = some p := by
    rw [ht0] at hsplit
    simpa using hsplit.symm
  have hpmem : p ∈ targetDirMentions w t0 := List.mem_of_find?_eq_some hpt0
  have hthird : p.2.2 = TargetNinjaBegin t0.name := targetDirMentions_third w t0 p hpmem
  refine ⟨p, t0, hp, hp1, ht0, hthird, ?_⟩
  have hroot := (ninjaBuild_graph_char w inp g ds hbuild).1
  rw [hroot, List.filter_append, rootHeader_filter_invoke, List.nil_append,
    rootTail_filter_invoke]
  rw [List.filter_map]
  have hcong : ((dedupMentions ((inp.targets.filter (fun t => t.envResolves)).flatMap
      (targetDirMentions w)) []).filter
        ((fun s => (stmtOutputs s).contains d) ∘ dirEdge w))
      = ((dedupMentions ((inp.targets.filter (fun t => t.envResolves)).flatMap
      (targetDirMentions w)) []).filter (fun r => r.1 == d)) := by
    apply List.filter_congr
    intro r _
    show (stmtOutputs (dirEdge w r)).contains d = (r.1 == d)
    show ([r.1].contains d) = (r.1 == d)
    by_cases h : r.1 = d
    · simp [h]
    · simp [h, Ne.symm h]
  rw [hcong, dedupMentions_filter_key]
  simp only [List.contains, List.elem, if_false]
  rw [hp]
  show [dirEdge w p] = _
  unfold dirEdge
  rw [hp1, hthird]

theorem claim_C2_mkdir_unique_witness :
    ninjaBuild testWorld okBuildInput = (some okGraph, okDiags)
    ∧ "/o" ∈ (buildDirMentions testWorld okBuildInput).map (fun q => q.1)
    ∧ (∃ p t0,
        (buildDirMentions testWorld okBuildInput).find? (fun q => q.1 == "/o") = some p
        ∧ p.1 = "/o"
        ∧ (okBuildInput.targets.filter (fun t => t.envResolves)).find?
            (fun t => (targetDirMentions testWorld t).any (fun q => q.1 == "/o")) = some t0
        ∧ p.2.2 = TargetNinjaBegin t0.name
        ∧ (okGraph.root.filter (stmtIsBuildWithRule NinjaRuleName)).filter
            (fun s => (stmtOutputs s).contains "/o")
          = [Stmt.build ["/o"] NinjaRuleName []
              [("description", NinjaDescription
                  (testWorld.createAuxiliaryDirectoryMessage "/o")),
               ("dir", ShellEscape p.2.1),
               ("exec", "/bin/mkdir -p " ++ ShellEscape "/o")]
              [] [TargetNinjaBegin t0.name]]) :=
  ⟨by decide, by decide,
    claim_C2_mkdir_unique testWorld okBuildInput okGraph okDiags "/o" (by decide) (by decide)⟩

theorem finishStmt_mem_rootTail (w : World) :
    ∀ (ts : List TargetInput) (seen : List String) (t : TargetInput),
      t ∈ ts → t.envResolves = true → finishStmtOf t ∈ rootTail w ts seen := by
  intro ts
  induction ts with
  | nil => intro seen t hmem; exact absurd hmem (List.not_mem_nil t)
  | cons t2 ts ih =>
    intro seen t hmem henv
    rcases List.mem_cons.mp hmem with rfl | htail
    · rw [rootTail]
      simp [henv]
    · cases henv2 : t2.envResolves with
      | false =>
          rw [rootTail]
          simp only [henv2, Bool.not_false, if_true]
          exact List.mem_cons_of_mem _ (ih seen t htail henv)
      | true =>
          rw [rootTail]
          simp only [henv2, Bool.not_true, Bool.false_eq_true, if_false]
          refine List.mem_append.mpr (Or.inr ?_)
          exact ih _ t htail henv

/-- C10: on a successful build, for every environment-resolving target the
root graph holds a finish phony edge whose rebuild-driving inputs are the
real outputs of all of the target's invocations — including invocations
whose executable is empty or does not resolve, which contribute no build
edge — and whose order-only inputs are the synthetic phony-output paths of
all invocations; consequently the root graph can name finish-edge inputs
that no emitted edge produces, as the ghost build exhibits concretely. -/
theorem claim_C10_finish_edge :
    (∀ (w : World) (inp : BuildInput) (g : NinjaGraph) (ds : List String),
      ninjaBuild w inp = (some g, ds) →
      ∀ t ∈ inp.targets, t.envResolves = true →
        Stmt.build [TargetNinjaFinish t.name] "phony" [] []
          ((t.invocations.map Invocation.outputs).flatten)
          ((t.invocations.map
            (fun inv => inv.phonyOutputs.map NinjaPhonyOutputTarget)).flatten)
          ∈ g.root)
    ∧ ninjaBuild testWorld ghostBuildInput = (some ghostGraph, ghostDiags)
    ∧ Stmt.build [TargetNinjaFinish "G"] "phony" [] [] ["/g/ghost"] [] ∈ ghostGraph.root
    ∧ (graphAllStmts ghostGraph).all
        (fun s => !((stmtOutputs s).contains "/g/ghost")) = true := by
  refine ⟨?_, by decide, by decide, by decide⟩
  intro w inp g ds hbuild t hmem henv
  have hroot := (ninjaBuild_graph_char w inp g ds hbuild).1
  rw [hroot]
  refine List.mem_append.mpr (Or.inr ?_)
  exact finishStmt_mem_rootTail w inp.targets [] t hmem henv

theorem claim_C10_finish_edge_witness :
    ninjaBuild testWorld ghostBuildInput = (some ghostGraph, ghostDiags)
    ∧ ghostTarget ∈ ghostBuildInput.targets
    ∧ ghostTarget.envResolves = true
    ∧ Stmt.build [TargetNinjaFinish ghostTarget.name] "phony" [] []
        ((ghostTarget.invocations.map Invocation.outputs).flatten)
        ((ghostTarget.invocations.map
          (fun inv => inv.phonyOutputs.map NinjaPhonyOutputTarget)).flatten)
        ∈ ghostGraph.root :=
  ⟨by decide, by decide, by decide,
    claim_C10_finish_edge.1 testWorld ghostBuildInput ghostGraph ghostDiags
      (by decide) ghostTarget (by decide) (by decide)⟩

theorem invocationStmts_unresolved (w : World) (b : String) (sp : List String)
    (inv : Invocation) (hne : inv.executable ≠ "")
    (hres : ResolveExecutable w inv.executable sp = "") :
    invocationStmts w b sp inv
      = ([], ["error: unable to find executable " ++ inv.executable ++ "\n"]) := by
  unfold invocationStmts
  have h1 : (inv.executable == "") = false := by simp [hne]
  rw [h1]
  simp [hres]

theorem ninjaBuild_diags (w : World) (inp : BuildInput)
    (h : buildWritesOk w inp = true) :
    (ninjaBuild w inp).2
      = (inp.targets.map (targetDiags w)).flatten
        ++ ["Wrote meta-ninja: " ++ (inp.objroot ++ "/" ++ "build.ninja") ++ "\n"] := by
  rw [ninjaBuild_ok_char w inp h]

/-- C9: the emitter's build returns a failure result exactly when one of
its filesystem writes fails (an auxiliary file or its parent directory, a
per-target sub-graph file, or the root graph file); a target whose
environment cannot be resolved, or an invocation whose executable cannot
be resolved (including the `builtin-` executables, which the resolver maps
to empty), produces only a standard-error diagnostic and is skipped,
leaving the boolean result untouched and emission continuing. -/
theorem claim_C9_failure_semantics :
    (∀ (w : World) (inp : BuildInput),
      (ninjaBuild w inp).1.isSome = buildWritesOk w inp)
    ∧ (∀ (w : World) (inp : BuildInput) (t : TargetInput),
        t ∈ inp.targets → t.envResolves = false → buildWritesOk w inp = true →
        ("error: couldn't create target environment for " ++ t.name ++ "\n")
          ∈ (ninjaBuild w inp).2)
    ∧ (∀ (w : World) (inp : BuildInput) (t : TargetInput) (inv : Invocation),
        t ∈ inp.targets → inv ∈ t.invocations → t.envResolves = true →
        buildWritesOk w inp = true → inv.executable ≠ "" →
        ResolveExecutable w inv.executable t.sdkExecutablePaths = "" →
        ("error: unable to find executable " ++ inv.executable ++ "\n")
          ∈ (ninjaBuild w inp).2
        ∧ (invocationStmts w (TargetNinjaBegin t.name) t.sdkExecutablePaths inv).1
          = []) := by
  refine ⟨ninjaBuild_isSome, ?_, ?_⟩
  · intro w inp t hmem henv hok
    rw [ninjaBuild_diags w inp hok]
    refine List.mem_append.mpr (Or.inl ?_)
    refine List.mem_flatten.mpr ⟨targetDiags w t, List.mem_map.mpr ⟨t, hmem, rfl⟩, ?_⟩
    unfold targetDiags
    rw [henv]
    simp
  · intro w inp t inv hmem hinv henv hok hne hres
    have hstmt := invocationStmts_unresolved w (TargetNinjaBegin t.name)
      t.sdkExecutablePaths inv hne hres
    constructor
    · rw [ninjaBuild_diags w inp hok]
      refine List.mem_append.mpr (Or.inl ?_)
      refine List.mem_flatten.mpr ⟨targetDiags w t, List.mem_map.mpr ⟨t, hmem, rfl⟩, ?_⟩
      unfold targetDiags
      rw [henv]
      simp only [Bool.not_true, Bool.false_eq_true, if_false]
      refine List.mem_append.mpr (Or.inl ?_)
      unfold targetInvDiags
      refine List.mem_flatten.mpr
        ⟨["error: unable to find executable " ++ inv.executable ++ "\n"],
          List.mem_map.mpr ⟨inv, hinv, ?_⟩, by simp⟩
      rw [hstmt]
    · rw [hstmt]

theorem claim_C9_failure_semantics_witness :
    buildWritesOk testWorld mixedBuildInput = true
    ∧ ("error: couldn't create target environment for E\n")
      ∈ (ninjaBuild testWorld mixedBuildInput).2
    ∧ ("error: unable to find executable builtin-copy\n")
      ∈ (ninjaBuild testWorld mixedBuildInput).2 := by
  refine ⟨by decide, ?_, ?_⟩
  · have h := claim_C9_failure_semantics.2.1 testWorld mixedBuildInput envFailTarget
      (by decide) (by decide) (by decide)
    simpa using h
  · have h := (claim_C9_failure_semantics.2.2 testWorld mixedBuildInput ghostTarget
      { executable := "builtin-copy", outputs := ["/g/ghost"], workingDirectory := "/wd" }
      (by decide) (by decide) (by decide) (by decide) (by decide) (by decide)).1
    simpa using h

theorem dedupMentions_subset :
    ∀ (ps : List (String × String × String)) (seen : List String),
      ∀ q ∈ dedupMentions ps seen, q ∈ ps := by
  intro ps
  induction ps with
  | nil => intro seen q hq; simp [dedupMentions] at hq
  | cons r ps ih =>
    intro seen q hq
    rw [dedupMentions] at hq
    by_cases hc : seen.contains r.1 = true
    · rw [hc] at hq
      simp only [if_true] at hq
      exact List.mem_cons_of_mem _ (ih seen q hq)
    · have hc2 : seen.contains r.1 = false := by
        cases hb : seen.contains r.1
        · rfl
        · exact absurd hb hc
      rw [hc2] at hq
      simp only [Bool.false_eq_true, if_false] at hq
      rcases List.mem_cons.mp hq with rfl | htail
      · exact List.mem_cons_self _ _
      · exact List.mem_cons_of_mem _ (ih _ q htail)

theorem mem_rootTail (w : World) :
    ∀ (ts : List TargetInput) (seen : List String) (s : Stmt), s ∈ rootTail w ts seen →
      (∃ t ∈ ts, s = beginStmtOf t)
      ∨ (∃ t ∈ ts, s = Stmt.subninja (TargetNinjaPath t.targetTempDir))
      ∨ (∃ t ∈ ts, s = finishStmtOf t)
      ∨ (∃ t ∈ ts, t.envResolves = true ∧ ∃ q ∈ targetDirMentions w t, s = dirEdge w q) := by
  intro ts
  induction ts with
  | nil => intro seen s hs; simp [rootTail] at hs
  | cons t ts ih =>
    intro seen s hs
    have lift : (∃ t2 ∈ ts, s = beginStmtOf t2)
        ∨ (∃ t2 ∈ ts, s = Stmt.subninja (TargetNinjaPath t2.targetTempDir))
        ∨ (∃ t2 ∈ ts, s = finishStmtOf t2)
        ∨ (∃ t2 ∈ ts, t2.envResolves = true ∧ ∃ q ∈ targetDirMentions w t2, s = dirEdge w q) →
        (∃ t2 ∈ t :: ts, s = beginStmtOf t2)
        ∨ (∃ t2 ∈ t :: ts, s = Stmt.subninja (TargetNinjaPath t2.targetTempDir))
        ∨ (∃ t2 ∈ t :: ts, s = finishStmtOf t2)
        ∨ (∃ t2 ∈ t :: ts, t2.envResolves = true
            ∧ ∃ q ∈ targetDirMentions w t2, s = dirEdge w q) := by
      intro h
      rcases h with ⟨t2, h2, h3⟩ | ⟨t2, h2, h3⟩ | ⟨t2, h2, h3⟩ | ⟨t2, h2, h3⟩
      · exact Or.inl ⟨t2, List.mem_cons_of_mem _ h2, h3⟩
      · exact Or.inr (Or.inl ⟨t2, List.mem_cons_of_mem _ h2, h3⟩)
      · exact Or.inr (Or.inr (Or.inl ⟨t2, List.mem_cons_of_mem _ h2, h3⟩))
      · exact Or.inr (Or.inr (Or.inr ⟨t2, List.mem_cons_of_mem _ h2, h3⟩))
    cases henv : t.envResolves with
    | false =>
        rw [rootTail] at hs
        simp only [henv, Bool.not_false, if_true] at hs
        rcases List.mem_cons.mp hs with rfl | htail
        · exact Or.inl ⟨t, List.mem_cons_self _ _, rfl⟩
        · exact lift (ih seen s htail)
    | true =>
        rw [rootTail] at hs
        simp only [henv, Bool.not_true, Bool.false_eq_true, if_false] at hs
        rcases List.mem_append.mp hs with hleft | htail
        · rcases List.mem_cons.mp hleft with rfl | hmid
          · exact Or.inl ⟨t, List.mem_cons_self _ _, rfl⟩
          · rw [buildTargetOutputDirectories_char] at hmid
            simp only at hmid
            rcases List.mem_append.mp hmid with hdir | hsf
            · rcases List.mem_map.mp hdir with ⟨q, hq, rfl⟩
              have hq2 := dedupMentions_subset _ _ q hq
              exact Or.inr (Or.inr (Or.inr
                ⟨t, List.mem_cons_self _ _, henv, q, hq2, rfl⟩))
            · rcases List.mem_cons.mp hsf with rfl | hfin
              · exact Or.inr (Or.inl ⟨t, List.mem_cons_self _ _, rfl⟩)
              · have : s = finishStmtOf t := by simpa using hfin
                exact Or.inr (Or.inr (Or.inl ⟨t, List.mem_cons_self _ _, this⟩))
        · exact lift (ih _ s htail)

theorem contains_singleton_false (x p : String) (h : p ≠ x) :
    ([x].contains p) = false := by
  simp [h]

theorem rootHeader_countP_zero (inp : BuildInput) (p : String) :
    (rootHeader inp).countP (fun s => (stmtOutputs s).contains p) = 0 := by
  unfold rootHeader
  cases inp.workspaceFile <;> cases inp.projectFile <;> cases inp.schemeName <;>
    simp [stmtOutputs]

theorem root_countP_zero (w : World) (inp : BuildInput) (p : String)
    (hbf : ∀ t ∈ inp.targets, p ≠ TargetNinjaBegin t.name ∧ p ≠ TargetNinjaFinish t.name)
    (hdir : ∀ q ∈ buildDirMentions w inp, p ≠ q.1) :
    (rootHeader inp ++ rootTail w inp.targets []).countP
      (fun s => (stmtOutputs s).contains p) = 0 := by
  rw [List.countP_append, rootHeader_countP_zero]
  rw [Nat.zero_add, List.countP_eq_zero]
  intro s hs
  rcases mem_rootTail w inp.targets [] s hs with
    ⟨t, ht, rfl⟩ | ⟨t, ht, rfl⟩ | ⟨t, ht, rfl⟩ | ⟨t, ht, henv, q, hq, rfl⟩
  · show ¬(([TargetNinjaBegin t.name].contains p) = true)
    rw [contains_singleton_false _ _ (hbf t ht).1]
    simp
  · show ¬(([] : List String).contains p = true)
    simp
  · show ¬(([TargetNinjaFinish t.name].contains p) = true)
    rw [contains_singleton_false _ _ (hbf t ht).2]
    simp
  · show ¬(([q.1].contains p) = true)
    have hqmem : q ∈ buildDirMentions w inp := by
      unfold buildDirMentions
      exact List.mem_flatMap.mpr ⟨t, by simp [ht, henv], hq⟩
    rw [contains_singleton_false _ _ (hdir q hqmem)]
    simp

theorem natSum_zero (l : List Nat) (h : ∀ x ∈ l, x = 0) : l.sum = 0 := by
  induction l with
  | nil => rfl
  | cons x l ih =>
      rw [List.sum_cons, h x (List.mem_cons_self x l),
        ih (fun y hy => h y (List.mem_cons_of_mem x hy))]

theorem sum_le_one_of_pairwise {α : Type} (S : α → List String)
    (c : α → Nat) (p : String) :
    ∀ l : List α,
      (∀ a ∈ l, c a ≤ 1) →
      (∀ a ∈ l, p ∉ S a → c a = 0) →
      List.Pairwise (fun i j => ∀ q, q ∈ S i → q ∉ S j) l →
      (l.map c).sum ≤ 1 := by
  intro l
  induction l with
  | nil => intro _ _ _; simp
  | cons a l ih =>
    intro hle hz hp
    rw [List.pairwise_cons] at hp
    rw [List.map_cons, List.sum_cons]
    by_cases hpa : p ∈ S a
    · have hzero : (l.map c).sum = 0 := by
        apply natSum_zero
        intro x hx
        rcases List.mem_map.mp hx with ⟨b, hb, rfl⟩
        exact hz b (List.mem_cons_of_mem a hb) (hp.1 b hb p hpa)
      rw [hzero]
      have := hle a (List.mem_cons_self a l)
      omega
    · have hca : c a = 0 := hz a (List.mem_cons_self a l) hpa
      rw [hca]
      have := ih (fun b hb => hle b (List.mem_cons_of_mem a hb))
        (fun b hb => hz b (List.mem_cons_of_mem a hb)) hp.2
      omega

theorem countP_singleton_le (pred : Stmt → Bool) (s : Stmt) :
    List.countP pred [s] ≤ 1 := by
  by_cases h : pred s <;> simp [List.countP_cons, h]

theorem invocationStmts_countP (w : World) (b : String) (sp : List String)
    (inv : Invocation) (p : String) (hphi : p ∉ inv.phonyInputs) :
    ((invocationStmts w b sp inv).1).countP
        (fun s => (stmtOutputs s).contains p) ≤ 1
    ∧ (p ∉ invOutputsAll inv →
        ((invocationStmts w b sp inv).1).countP
          (fun s => (stmtOutputs s).contains p) = 0) := by
  unfold invocationStmts
  cases h1 : (inv.executable == "") with
  | true => simp [h1]
  | false =>
      simp only [h1, Bool.false_eq_true, if_false]
      cases h2 : (ResolveExecutable w inv.executable sp == "") with
      | true => simp [h2]
      | false =>
          simp only [h2, Bool.false_eq_true, if_false]
          rw [List.countP_append]
          have hph : (inv.phonyInputs.map
              (fun pIn => Stmt.build [pIn] "phony" [] [] [] [])).countP
                (fun s => (stmtOutputs s).contains p) = 0 := by
            rw [List.countP_eq_zero]
            intro s hs
            rcases List.mem_map.mp hs with ⟨pIn, hpIn, rfl⟩
            show ¬(([pIn].contains p) = true)
            have hnep : p ≠ pIn := by
              intro heq
              apply hphi
              rw [heq]
              exact hpIn
            rw [contains_singleton_false _ _ hnep]
            simp
          rw [hph, Nat.zero_add]
          constructor
          · exact countP_singleton_le _ _
          · intro hnot
            rw [List.countP_eq_zero]
            intro s hs
            have hseq : s = Stmt.build
                (inv.outputs ++ inv.phonyOutputs.map NinjaPhonyOutputTarget)
                NinjaRuleName inv.inputs
                [("description", NinjaDescription (w.beginInvocationMessage inv
                    (ResolveExecutable w inv.executable sp))),
                 ("dir", ShellEscape inv.workingDirectory),
                 ("exec", composeExec (ResolveExecutable w inv.executable sp)
                    inv.arguments)]
                inv.inputDependencies
                (inv.orderDependencies
                  ++ dedupKeepFirst (inv.outputs.map w.getDirectoryName) [] ++ [b]) := by
              simpa using hs
            subst hseq
            show ¬(((inv.outputs
              ++ inv.phonyOutputs.map NinjaPhonyOutputTarget).contains p) = true)
            intro hcon
            exact hnot (by simpa [invOutputsAll] using hcon)

theorem natSum_flatMap {α : Type} (f : α → List Nat) :
    ∀ l : List α, ((l.flatMap f).sum) = (l.map (fun a => (f a).sum)).sum := by
  intro l
  induction l with
  | nil => rfl
  | cons a l ih => rw [List.flatMap_cons, List.sum_append, List.map_cons, List.sum_cons, ih]

theorem allInvPairs_map_snd (inp : BuildInput) :
    (allInvPairs inp).map Prod.snd = allInvocationsOf inp := by
  unfold allInvPairs allInvocationsOf
  induction inp.targets.filter (fun t => t.envResolves) with
  | nil => rfl
  | cons t ts ih =>
      rw [List.flatMap_cons, List.flatMap_cons, List.map_append, ih, List.map_map]
      simp [Function.comp_def]

theorem allInvPairs_snd_mem (inp : BuildInput) (pr : TargetInput × Invocation)
    (h : pr ∈ allInvPairs inp) : pr.2 ∈ allInvocationsOf inp := by
  rw [← allInvPairs_map_snd]
  exact List.mem_map.mpr ⟨pr, h, rfl⟩

theorem targetSubStmts_countP (w : World) (t : TargetInput) (p : String) :
    (targetSubStmts w t).countP (fun s => (stmtOutputs s).contains p)
      = (t.invocations.map (fun inv =>
          ((invocationStmts w (TargetNinjaBegin t.name)
            t.sdkExecutablePaths inv).1).countP
              (fun s => (stmtOutputs s).contains p))).sum := by
  unfold targetSubStmts
  rw [List.countP_append, List.countP_flatten, List.map_map]
  have hhd : ([Stmt.comment "xcbuild ninja", Stmt.comment ("Target: " ++ t.name),
      Stmt.newline]).countP (fun s => (stmtOutputs s).contains p) = 0 := by
    simp [stmtOutputs]
  rw [hhd, Nat.zero_add]
  rfl

theorem subs_countP_char (w : World) (inp : BuildInput) (p : String) :
    ((((inp.targets.filter (fun t => t.envResolves)).map
        (fun t => targetSubStmts w t)).flatten).countP
          (fun s => (stmtOutputs s).contains p))
      = ((allInvPairs inp).map (fun pr =>
          ((invocationStmts w (TargetNinjaBegin pr.1.name)
            pr.1.sdkExecutablePaths pr.2).1).countP
              (fun s => (stmtOutputs s).contains p))).sum := by
  rw [List.countP_flatten, List.map_map]
  unfold allInvPairs
  rw [List.map_flatMap, natSum_flatMap]
  congr 1
  apply List.map_congr_left
  intro t _
  show (targetSubStmts w t).countP (fun s => (stmtOutputs s).contains p) = _
  rw [targetSubStmts_countP, List.map_map]
  rfl

/-- C1 counterexample: the emitter enforces no output uniqueness. In the
duplicate build two invocations of one target both output `/t/X`; the
emitted graph holds two build edges with `/t/X` among their outputs, so
the claimed invariant (at most one edge per output path, equivalently
pairwise disjoint invocation outputs) fails on this build. -/
theorem claim_C1_counterexample :
    "/t/X" ∈ allOutputPathsOf dupBuildInput
    ∧ ((ninjaBuild testWorld dupBuildInput).1.map (fun g =>
        (graphAllStmts g).countP (fun s => (stmtOutputs s).contains "/t/X")))
      = some 2 :=
  ⟨by decide, by decide⟩

/-- C1 (amended): the uniqueness invariant holds under the precondition
that the emitter's input satisfies it: if distinct invocations (of
environment-resolving targets) have pairwise disjoint output sets (real
outputs plus synthetic phony outputs), and no such path collides with a
begin or finish node name, an emitted output directory, or a phony input,
then every real or synthetic output path is among the outputs of at most
one build edge of the whole emitted graph. The emitter itself never
checks this precondition. -/
theorem claim_C1_unique_producer (w : World) (inp : BuildInput) (g : NinjaGraph)
    (ds : List String) (p : String)
    (hbuild : ninjaBuild w inp = (some g, ds))
    (hdisj : List.Pairwise (fun i j => ∀ q, q ∈ invOutputsAll i → q ∉ invOutputsAll j)
      (allInvocationsOf inp))
    (hp : p ∈ allOutputPathsOf inp)
    (hbf : ∀ t ∈ inp.targets, p ≠ TargetNinjaBegin t.name ∧ p ≠ TargetNinjaFinish t.name)
    (hdir : ∀ q ∈ buildDirMentions w inp, p ≠ q.1)
    (hphi : ∀ i ∈ allInvocationsOf inp, p ∉ i.phonyInputs) :
    (graphAllStmts g).countP (fun s => (stmtOutputs s).contains p) ≤ 1 := by
  have hchar := ninjaBuild_graph_char w inp g ds hbuild
  unfold graphAllStmts
  rw [hchar.1, List.countP_append]
  have hsubs : g.subs.map Prod.snd
      = (inp.targets.filter (fun t => t.envResolves)).map
          (fun t => targetSubStmts w t) := by
    rw [hchar.2.1, List.map_map]
    rfl
  rw [hsubs]
  rw [root_countP_zero w inp p hbf hdir, Nat.zero_add]
  rw [subs_countP_char]
  refine sum_le_one_of_pairwise (fun pr => invOutputsAll pr.2)
    (fun pr => ((invocationStmts w (TargetNinjaBegin pr.1.name)
      pr.1.sdkExecutablePaths pr.2).1).countP
        (fun s => (stmtOutputs s).contains p)) p (allInvPairs inp) ?_ ?_ ?_
  · intro pr hpr
    exact (invocationStmts_countP w _ _ pr.2 p
      (hphi pr.2 (allInvPairs_snd_mem inp pr hpr))).1
  · intro pr hpr
    exact (invocationStmts_countP w _ _ pr.2 p
      (hphi pr.2 (allInvPairs_snd_mem inp pr hpr))).2
  · have hd2 : List.Pairwise
        (fun i j => ∀ q, q ∈ invOutputsAll i → q ∉ invOutputsAll j)
        ((allInvPairs inp).map Prod.snd) := by
      rw [allInvPairs_map_snd]
      exact hdisj
    exact (List.pairwise_map.mp hd2)

theorem claim_C1_unique_producer_witness :
    ninjaBuild testWorld okBuildInput = (some okGraph, okDiags)
    ∧ "/o/a.o" ∈ allOutputPathsOf okBuildInput
    ∧ (graphAllStmts okGraph).countP
        (fun s => (stmtOutputs s).contains "/o/a.o") ≤ 1 :=
  ⟨by decide, by decide,
    claim_C1_unique_producer testWorld okBuildInput okGraph okDiags "/o/a.o"
      (by decide) (by decide) (by decide) (by decide) (by decide) (by decide)⟩
